import Mathlib

/-!
Verification of the best-response dynamic program of
`BestResponseDynamics/BR.py` (`best_respond`, `total_cost`).

The embedding models the numpy arrays of the source as total functions
accessed through an explicit index-resolution step (`npIndex`).  numpy
accepts an index `i` with `-size ≤ i < size` (a negative index wraps to
`i + size`) and raises `IndexError` otherwise; fallible computations are
therefore placed in the `Option` monad (`none` = a raised `IndexError`).
The `np.inf` sentinel stored in the cost table is modelled by `Option ℚ`
(`none` = `np.inf`); Python floats are modelled by `ℚ` (every quantity
the program manipulates is produced by ring operations from the integer
inputs and `kappa`, so the arithmetic is exact).  Integer-valued arrays
(`dpaction`, `anow`) are modelled with `ℤ` values.  Row indices (time
steps) are always in range for a horizon `T ≥ 1`, the case every claim
is about, so rows are keyed by plain naturals.
-/

namespace BRD

/-- numpy index resolution on an axis of size `size`: indices in
`[0, size)` are taken as is, indices in `[-size, 0)` wrap by `+ size`,
anything else raises `IndexError` (`none`). -/
def npIndex (size i : ℤ) : Option ℤ :=
  if 0 ≤ i ∧ i < size then some i
  else if -size ≤ i ∧ i < 0 then some (i + size) else none

/-- Element access `xs[i]` of a Python list / 1-d numpy array,
with the negative-index wrap. -/
def npGetList (xs : List ℚ) (i : ℤ) : Option ℚ :=
  (npIndex xs.length i).bind fun j => xs.get? j.toNat

/-- `range(lo, hi + 1)` as a list of integers. -/
def sList (lo hi : ℤ) : List ℤ :=
  (List.range (hi + 1 - lo).toNat).map fun k : ℕ => lo + (k : ℤ)

/-- The comparison `x < y` on cost values where `none` plays `np.inf`
(so `none < none` is false, matching IEEE `inf < inf`). -/
def optLT : Option ℚ → Option ℚ → Bool
  | none, _ => false
  | some _, none => true
  | some x, some y => decide (x < y)

/-! ## Parameters

The six arguments of `best_respond`, bundled. -/

structure Params where
  V : ℤ
  bnow : List ℚ
  T : ℕ
  kappa : ℚ
  lower_limit : ℤ
  upper_limit : ℤ

namespace Params

variable (p : Params)

/-- source: `b = np.array([np.sum(bnow[:i+1]) for i in range(T)])`. -/
def b : List ℚ := (List.range p.T).map fun i : ℕ => (p.bnow.take (i + 1)).sum

/-- source: `def min_remaining(t): return V - upper_limit * t`. -/
def min_remaining (t : ℕ) : ℤ := p.V - p.upper_limit * t

/-- source: `def max_remaining(t): return V - lower_limit * t`. -/
def max_remaining (t : ℕ) : ℤ := p.V - p.lower_limit * t

/-- source: `s_size = max_remaining(T) - min_remaining(T) + 1`. -/
def s_size : ℤ := p.max_remaining p.T - p.min_remaining p.T + 1

/-- source: `def s_to_index(s): return s - min_remaining(T)`. -/
def s_to_index (s : ℤ) : ℤ := s - p.min_remaining p.T

/-- The cost table `dptable`, keyed by (row, resolved column index);
`none` is the `np.inf` sentinel it is initialized with. -/
abbrev CostTab := ℕ → ℤ → Option ℚ

/-- The action table `dpaction`, keyed like `dptable`; initialized to 0. -/
abbrev ActTab := ℕ → ℤ → ℤ

/-- Write one `dptable` cell. -/
def writeC (c : CostTab) (t : ℕ) (j : ℤ) (v : ℚ) : CostTab :=
  fun t' j' => if t' = t ∧ j' = j then some v else c t' j'

/-- Write one `dpaction` cell. -/
def writeA (a : ActTab) (t : ℕ) (j : ℤ) (v : ℤ) : ActTab :=
  fun t' j' => if t' = t ∧ j' = j then v else a t' j'

/-- One iteration of the base-case loop
(`for s in range(min_remaining(T), max_remaining(T) + 1)`): when
`lower_limit <= s <= upper_limit`, set
`dptable[T-1,i] = s*((s + bnow[T-1]) + kappa*((V-s) + b[T-2]))` and
`dpaction[T-1,i] = s` at `i = s_to_index(s)`.  Note `bnow[T-1]` and
`b[T-2]` go through numpy indexing: at `T = 1` the latter wraps to
`b[-1]`, the last (= only) entry of `b`. -/
def baseStep (ca : CostTab × ActTab) (s : ℤ) : Option (CostTab × ActTab) :=
  if p.lower_limit ≤ s ∧ s ≤ p.upper_limit then do
    let j ← npIndex p.s_size (p.s_to_index s)
    let bT1 ← npGetList p.bnow ((p.T : ℤ) - 1)
    let bT2 ← npGetList p.b ((p.T : ℤ) - 2)
    pure (writeC ca.1 (p.T - 1) j (s * ((s + bT1) + p.kappa * ((p.V - s) + bT2))),
          writeA ca.2 (p.T - 1) j s)
  else pure ca

/-- The immediate cost term of the inner `q` loop:
`q*(q + bnow[t])` at `t = 0`, and
`q*((q + bnow[t]) + kappa*((V-s) + b[t-1]))` at `t > 0`. -/
def immStep (t : ℕ) (s q : ℤ) : Option ℚ :=
  if t = 0 then do
    let b0 ← npGetList p.bnow 0
    pure (q * (q + b0))
  else do
    let bt ← npGetList p.bnow t
    let bp ← npGetList p.b ((t : ℤ) - 1)
    pure (q * ((q + bt) + p.kappa * ((p.V - s) + bp)))

/-- One iteration of the `q` loop at state `(t, s)`: read
`dptable[t+1, next_i]` for `next_s = s - q`, form `thisval`, and update
the running `(mincost, argmin)` pair when `thisval < mincost`
(strict comparison, `np.inf` semantics). -/
def qStep (c : CostTab) (t : ℕ) (s : ℤ) (st : Option ℚ × Option ℤ) (q : ℤ) :
    Option (Option ℚ × Option ℤ) := do
  let next_j ← npIndex p.s_size (p.s_to_index (s - q))
  let prev : Option ℚ := c (t + 1) next_j
  let imm ← p.immStep t s q
  let thisval : Option ℚ := prev.map fun w => w + imm
  pure (if optLT thisval st.1 then (thisval, some q) else st)

/-- One iteration of the `s` loop at row `t < T-1`: run the `q` loop and
record the final `(mincost, argmin)` at `i = s_to_index(s)`.  The source
writes `dptable[t,i]`/`dpaction[t,i]` at every strict improvement inside
the `q` loop; those cells are never read back before the loop ends, so
only the final write (performed here) is observable. -/
def sStep (t : ℕ) (ca : CostTab × ActTab) (s : ℤ) : Option (CostTab × ActTab) := do
  let r ← (sList p.lower_limit p.upper_limit).foldlM (p.qStep ca.1 t s) (none, none)
  match r with
  | (some v, some q) => do
      let j ← npIndex p.s_size (p.s_to_index s)
      pure (writeC ca.1 t j v, writeA ca.2 t j q)
  | _ => pure ca

/-- Row `t` of the backward induction:
`for s in range(min_remaining(t), max_remaining(t) + 1)`. -/
def rowStep (ca : CostTab × ActTab) (t : ℕ) : Option (CostTab × ActTab) :=
  (sList (p.min_remaining t) (p.max_remaining t)).foldlM (p.sStep t) ca

/-- Populate `dptable` and `dpaction`: the base case at row `T-1`, then
`for t in reversed(range(T-1))`. -/
def populate : Option (CostTab × ActTab) := do
  let ca0 : CostTab × ActTab := (fun _ _ => none, fun _ _ => 0)
  let ca1 ← (sList (p.min_remaining p.T) (p.max_remaining p.T)).foldlM p.baseStep ca0
  ((List.range (p.T - 1)).reverse).foldlM p.rowStep ca1

/-- One iteration of the reconstruction loop: read
`anow[t] = dpaction[t, s_to_index(volrem)]` and decrement `volrem`. -/
def reconStep (a : ActTab) (st : List ℤ × ℤ) (t : ℕ) : Option (List ℤ × ℤ) := do
  let j ← npIndex p.s_size (p.s_to_index st.2)
  let q := a t j
  pure (st.1 ++ [q], st.2 - q)

/-- source: `best_respond` on bundled parameters — populate the tables,
then traverse them from `(t, s) = (0, V)`. -/
def run : Option (List ℤ) := do
  let ca ← p.populate
  let r ← (List.range p.T).foldlM (p.reconStep ca.2) ([], p.V)
  pure r.1

end Params

/-- source: `def best_respond(V, bnow, T, kappa, lower_limit, upper_limit)`.
`none` models a raised exception (numpy `IndexError`). -/
def best_respond (V : ℤ) (bnow : List ℚ) (T : ℕ) (kappa : ℚ)
    (lower_limit upper_limit : ℤ) : Option (List ℤ) :=
  Params.run ⟨V, bnow, T, kappa, lower_limit, upper_limit⟩

/-- source: `def total_cost(anow, bnow, kappa)` — the cumulative-position
arrays `a = [sum(anow[:i]) for i in range(len(anow))]` (exclusive of the
current step) and likewise `b`, then the loop
`total_cost += (anow[t] + bnow[t])*anow[t] + kappa*(a[t] + b[t])*anow[t]`.
Fails (IndexError) iff `bnow` is shorter than `anow`. -/
def total_cost (anow bnow : List ℚ) (kappa : ℚ) : Option ℚ :=
  let a := (List.range anow.length).map fun i => (anow.take i).sum
  let b := (List.range bnow.length).map fun i => (bnow.take i).sum
  (List.range anow.length).foldlM
    (fun acc (t : ℕ) => do
      let x ← npGetList anow (t : ℤ)
      let y ← npGetList bnow (t : ℤ)
      let A ← npGetList a (t : ℤ)
      let B ← npGetList b (t : ℤ)
      pure (acc + ((x + y) * x + kappa * (A + B) * x)))
    0

namespace Params

variable (p : Params)

/-! ## Pointwise form of the tables

`dptable`/`dpaction` row `t` is written exactly once per state `s` of
the window `[min_remaining t, max_remaining t]`, at column
`s_to_index s`, with a value depending only on row `t+1`; the loops are
therefore equivalent to the following recursion on rows, indexed here by
`k` = number of rows below (so row `t = T-1-k`).  The bridge between
this form and the fold-based `populate` is proved below. -/

/-- `bnow[t]` for an in-range `t`. -/
def bAt (t : ℕ) : ℚ := p.bnow.getD t 0

/-- Cumulative opponent position strictly before step `t`
(`b[t-1]` in the source, for `t ≥ 1`). -/
def Bcum (t : ℕ) : ℚ := (p.bnow.take t).sum

/-- The immediate cost added for trading `q` at step `t` with `s` shares
remaining: `q*(q + bnow[t])` at `t = 0`, else
`q*((q + bnow[t]) + kappa*((V-s) + b[t-1]))`. -/
def immCost (t : ℕ) (s q : ℤ) : ℚ :=
  if t = 0 then q * (q + p.bAt 0)
  else q * ((q + p.bAt t) + p.kappa * ((p.V - s) + p.Bcum t))

/-- The `b[T-2]` read of the base case: for `T ≥ 2` the opponent
position through step `T-2`; at `T = 1` numpy wraps `b[-1]` to the last
(= only) entry `b[0]`. -/
def bT2 : ℚ := if p.T = 1 then p.Bcum 1 else p.Bcum (p.T - 1)

/-- The base-case cost `s*((s + bnow[T-1]) + kappa*((V-s) + b[T-2]))`. -/
def baseCost (s : ℤ) : ℚ :=
  s * ((s + p.bAt (p.T - 1)) + p.kappa * ((p.V - s) + p.bT2))

/-- Candidate cost of action `q` at `(t, s)` given the next row:
`dptable[t+1, s-q] + immediate cost` (with `none` = `np.inf`). -/
def cand (cNext : ℤ → Option ℚ) (t : ℕ) (s q : ℤ) : Option ℚ :=
  (cNext (s - q)).map fun w => w + p.immCost t s q

/-- The inner `q` loop in pure form: scan `q = lower_limit..upper_limit`
keeping `(mincost, argmin)`, updating on strict improvement only. -/
def qScan (cNext : ℤ → Option ℚ) (t : ℕ) (s : ℤ) : Option ℚ × Option ℤ :=
  (sList p.lower_limit p.upper_limit).foldl
    (fun st q =>
      if optLT (p.cand cNext t s q) st.1 then (p.cand cNext t s q, some q) else st)
    (none, none)

/-- Rows of the two tables keyed by the state `s` itself, from the
bottom row up: `dpCk 0` is row `T-1` (the base case, whose `s` loop
ranges over the window at `T`), `dpCk (k+1)` is row `T-2-k`.
Cells never written keep `(none, 0)` — the `np.inf` sentinel and the
`np.zeros` default action. -/
def dpCk : ℕ → ℤ → Option ℚ × ℤ
  | 0 => fun s =>
      if (p.min_remaining p.T ≤ s ∧ s ≤ p.max_remaining p.T) ∧
          p.lower_limit ≤ s ∧ s ≤ p.upper_limit
      then (some (p.baseCost s), s) else (none, 0)
  | (k + 1) => fun s =>
      let t := p.T - 2 - k
      if p.min_remaining t ≤ s ∧ s ≤ p.max_remaining t then
        let r := p.qScan (fun s' => (dpCk k s').1) t s
        (r.1, r.2.getD 0)
      else (none, 0)

/-- `dptable[t, s_to_index s]` in pointwise form (row `t ≤ T-1`). -/
def dpC (t : ℕ) (s : ℤ) : Option ℚ := (p.dpCk (p.T - 1 - t) s).1

/-- `dpaction[t, s_to_index s]` in pointwise form (row `t ≤ T-1`). -/
def dpA (t : ℕ) (s : ℤ) : ℤ := (p.dpCk (p.T - 1 - t) s).2

/-! ## Claim-facing observations of a `best_respond` run -/

/-- The `dptable` cell at `(t, s_to_index s)` after population
(outer `none` = the run raised, inner `none` = the `np.inf` sentinel). -/
def costAt (t : ℕ) (s : ℤ) : Option (Option ℚ) :=
  p.populate.map fun ca => ca.1 t (p.s_to_index s)

/-- The `dpaction` cell at `(t, s_to_index s)` after population. -/
def actAt (t : ℕ) (s : ℤ) : Option ℤ :=
  p.populate.map fun ca => ca.2 t (p.s_to_index s)

/-- The candidate cost `dptable[t+1, s_to_index (s-q)] + immediate cost`
examined by the `q` loop at `(t, s)`, observed after population. -/
def candAt (t : ℕ) (s q : ℤ) : Option (Option ℚ) :=
  p.populate.map fun ca =>
    (ca.1 (t + 1) (p.s_to_index (s - q))).map fun w => w + p.immCost t s q

/-- A trajectory the optimizer may return: length `T`, every entry
within the trade bounds, entries summing to `V`. -/
def Feasible (a : List ℤ) : Prop :=
  a.length = p.T ∧ (∀ x ∈ a, p.lower_limit ≤ x ∧ x ≤ p.upper_limit) ∧ a.sum = p.V

/-- Cost of trading the suffix `qs` from step `t` with `s` shares
remaining, accumulating the immediate costs of the recursion. -/
def suffCost : ℕ → ℤ → List ℤ → ℚ
  | _, _, [] => 0
  | t, s, q :: rest => p.immCost t s q + suffCost (t + 1) (s - q) rest

/-- The reconstruction pass in pure form: read `n` actions from the
pointwise action table starting at `(t, s)`. -/
def reconPath : ℕ → ℕ → ℤ → List ℤ
  | _, 0, _ => []
  | t, n + 1, s => p.dpA t s :: reconPath (t + 1) n (s - p.dpA t s)

end Params

/-- The per-step cost formula of the specification: temporary impact
`(a[t] + b[t])*a[t]` plus `kappa` times the positions accumulated
strictly before `t`. -/
def costFormula (anow bnow : List ℚ) (kappa : ℚ) : ℚ :=
  ∑ t ∈ Finset.range anow.length,
    ((anow.getD t 0 + bnow.getD t 0) * anow.getD t 0
      + kappa * ((anow.take t).sum + (bnow.take t).sum) * anow.getD t 0)

/-! ## Basic lemmas: lists, folds, numpy indexing -/

theorem foldlM_nil_opt {α β : Type _} (f : β → α → Option β) (b : β) :
    List.foldlM f b ([] : List α) = some b := rfl

theorem foldlM_cons_opt {α β : Type _} (f : β → α → Option β) (b : β) (x : α) (L : List α) :
    List.foldlM f b (x :: L) = (f b x).bind fun b' => List.foldlM f b' L := rfl

/-- A monadic fold over `Option` succeeds and tracks a pure fold, given
a relation preserved step by step. -/
theorem foldlM_option_rel {α β γ : Type _} (f : β → α → Option β) (g : γ → α → γ)
    (rel : β → γ → Prop) :
    ∀ (L : List α) (b : β) (c : γ), rel b c →
      (∀ x ∈ L, ∀ b' c', rel b' c' → ∃ b'', f b' x = some b'' ∧ rel b'' (g c' x)) →
      ∃ b', L.foldlM f b = some b' ∧ rel b' (L.foldl g c)
  | [], b, c, hbc, _ => ⟨b, rfl, hbc⟩
  | x :: L, b, c, hbc, hstep => by
      obtain ⟨b'', hfx, hrel⟩ := hstep x (List.mem_cons_self x L) b c hbc
      obtain ⟨b', hfold, hrel'⟩ := foldlM_option_rel f g rel L b'' (g c x) hrel
        (fun y hy => hstep y (List.mem_cons_of_mem x hy))
      exact ⟨b', by rw [foldlM_cons_opt, hfx]; exact hfold, by simpa using hrel'⟩

/-- A monadic fold over `Option` succeeds and preserves an invariant. -/
theorem foldlM_option_inv {α β : Type _} (f : β → α → Option β) (P : β → Prop)
    (L : List α) (b : β) (hb : P b)
    (hstep : ∀ x ∈ L, ∀ b', P b' → ∃ b'', f b' x = some b'' ∧ P b'') :
    ∃ b', L.foldlM f b = some b' ∧ P b' := by
  obtain ⟨b', h1, h2⟩ := foldlM_option_rel f (fun c _ => c) (fun b _ => P b) L b () hb
    (fun x hx b' c' hp => by
      obtain ⟨b'', h1, h2⟩ := hstep x hx b' hp
      exact ⟨b'', h1, h2⟩)
  exact ⟨b', h1, h2⟩

/-- Deterministic version: every step evaluates to a pure step. -/
theorem foldlM_eq_foldl {α β : Type _} (f : β → α → Option β) (g : β → α → β) (L : List α)
    (h : ∀ x ∈ L, ∀ b, f b x = some (g b x)) :
    ∀ b, L.foldlM f b = some (L.foldl g b) := by
  induction L with
  | nil => intro b; rfl
  | cons x L ih =>
      intro b
      rw [foldlM_cons_opt, h x (List.mem_cons_self x L)]
      exact ih (fun y hy => h y (List.mem_cons_of_mem x hy)) (g b x)

theorem mem_sList {lo hi s : ℤ} : s ∈ sList lo hi ↔ lo ≤ s ∧ s ≤ hi := by
  unfold sList
  simp only [List.mem_map, List.mem_range]
  constructor
  · rintro ⟨k, hk, rfl⟩; omega
  · rintro ⟨h1, h2⟩; exact ⟨(s - lo).toNat, by omega, by omega⟩

theorem npIndex_of_in_range {size i : ℤ} (h0 : 0 ≤ i) (h1 : i < size) :
    npIndex size i = some i := by
  unfold npIndex; rw [if_pos ⟨h0, h1⟩]

theorem npGetList_eq_getD (xs : List ℚ) (t : ℕ) (h : t < xs.length) :
    npGetList xs t = some (xs.getD t 0) := by
  unfold npGetList
  rw [npIndex_of_in_range (Int.ofNat_nonneg t) (by exact_mod_cast h)]
  simp [List.getD_eq_getElem?_getD, List.getElem?_eq_getElem h, List.get?_eq_getElem? _ _]

theorem foldl_range_add (F : ℕ → ℚ) (n : ℕ) :
    ∀ c : ℚ, (List.range n).foldl (fun acc t => acc + F t) c = c + ∑ t ∈ Finset.range n, F t := by
  induction n with
  | zero => intro c; simp
  | succ n ih =>
      intro c
      rw [List.range_succ, List.foldl_append, ih c, Finset.sum_range_succ]
      simp [add_assoc]

/-- `total_cost` succeeds and computes the per-step cost formula
whenever the opponent trajectory is at least as long. -/
theorem total_cost_eq (anow bnow : List ℚ) (kappa : ℚ) (h : anow.length ≤ bnow.length) :
    total_cost anow bnow kappa = some (costFormula anow bnow kappa) := by
  unfold total_cost costFormula
  have hstep : ∀ t ∈ List.range anow.length, ∀ acc : ℚ,
      (do
        let x ← npGetList anow t
        let y ← npGetList bnow t
        let A ← npGetList ((List.range anow.length).map fun i => (anow.take i).sum) t
        let B ← npGetList ((List.range bnow.length).map fun i => (bnow.take i).sum) t
        pure (acc + ((x + y) * x + kappa * (A + B) * x))) =
      some (acc + ((anow.getD t 0 + bnow.getD t 0) * anow.getD t 0
        + kappa * ((anow.take t).sum + (bnow.take t).sum) * anow.getD t 0)) := by
    intro t ht acc
    rw [List.mem_range] at ht
    have hA : ((List.range anow.length).map fun i => (anow.take i).sum).getD t 0
        = (anow.take t).sum := by
      rw [List.getD_eq_getElem?_getD, List.getElem?_map, List.getElem?_range ht]; rfl
    have hB : ((List.range bnow.length).map fun i => (bnow.take i).sum).getD t 0
        = (bnow.take t).sum := by
      rw [List.getD_eq_getElem?_getD, List.getElem?_map, List.getElem?_range (lt_of_lt_of_le ht h)]
      rfl
    rw [npGetList_eq_getD anow t ht,
      npGetList_eq_getD bnow t (lt_of_lt_of_le ht h),
      npGetList_eq_getD _ t (by simpa using ht),
      npGetList_eq_getD _ t (by simpa using lt_of_lt_of_le ht h), hA, hB]
    rfl
  rw [foldlM_eq_foldl _ _ _ hstep 0, foldl_range_add, zero_add]

/-! ## Claim C2 -/

/-- C2: for trajectories `anow`, `bnow` of equal length and any `kappa`,
`total_cost` evaluates without failing — whatever the entries sum to —
to the sum over `t` of `(a[t]+b[t])*a[t] + kappa*(A[t]+B[t])*a[t]`,
where `A[t]`, `B[t]` are the quantities accumulated strictly before `t`
(both `0` at `t = 0`); for length-0 trajectories the sum is empty and
the result is `0`. -/
theorem claim_C2 (anow bnow : List ℚ) (kappa : ℚ) (h : anow.length = bnow.length) :
    total_cost anow bnow kappa =
      some (∑ t ∈ Finset.range anow.length,
        ((anow.getD t 0 + bnow.getD t 0) * anow.getD t 0
          + kappa * ((anow.take t).sum + (bnow.take t).sum) * anow.getD t 0)) :=
  total_cost_eq anow bnow kappa (le_of_eq h)

/-- Witness for C2 at `anow = [1,2]`, `bnow = [3,4]`, `kappa = 1/2`. -/
theorem claim_C2_witness :
    total_cost [1, 2] [3, 4] (1/2) =
      some (∑ t ∈ Finset.range ([(1:ℚ), 2]).length,
        (([(1:ℚ), 2].getD t 0 + [(3:ℚ), 4].getD t 0) * [(1:ℚ), 2].getD t 0
          + (1/2) * (([(1:ℚ), 2].take t).sum + ([(3:ℚ), 4].take t).sum)
            * [(1:ℚ), 2].getD t 0)) :=
  claim_C2 [1, 2] [3, 4] (1/2) (by decide)

/-! ## Claim C5: counterexample and amended statement -/

/-- C5 counterexample: at the feasible instance `V = 3`, `T = 2`,
`lower_limit = 1`, `upper_limit = 2`, the state `s = 3` lies in the
feasible window at `t = 0` but its index `s_to_index 3 = 4` falls
outside the table bounds `0..s_size-1 = 0..2` — the window at step 0 is
not a subset of the window at step `T`. -/
theorem claim_C5_cex :
    ((1:ℤ) ≤ 2 ∧ (2:ℤ) * 1 ≤ 3 ∧ (3:ℤ) ≤ 2 * 2) ∧
    (Params.min_remaining ⟨3, [0, 0], 2, 0, 1, 2⟩ 0 ≤ 3 ∧
      (3:ℤ) ≤ Params.max_remaining ⟨3, [0, 0], 2, 0, 1, 2⟩ 0) ∧
    ¬ (0 ≤ Params.s_to_index ⟨3, [0, 0], 2, 0, 1, 2⟩ 3 ∧
        Params.s_to_index ⟨3, [0, 0], 2, 0, 1, 2⟩ 3 <
          Params.s_size ⟨3, [0, 0], 2, 0, 1, 2⟩) := by decide

/-- C5 (amended): provided additionally `lower_limit ≤ 0 ≤ upper_limit`,
the feasible window `[V - upper_limit*t, V - lower_limit*t]` at every
step `t ≤ T` is a subset of the window at step `T` that sizes the DP
table, so the index `s_to_index s` of every state in the window lies
within the table bounds `0..s_size-1`. -/
theorem claim_C5 (p : Params) (hl : p.lower_limit ≤ 0) (hu : 0 ≤ p.upper_limit)
    (t : ℕ) (ht : t ≤ p.T) (s : ℤ)
    (hs1 : p.min_remaining t ≤ s) (hs2 : s ≤ p.max_remaining t) :
    (p.min_remaining p.T ≤ s ∧ s ≤ p.max_remaining p.T) ∧
    0 ≤ p.s_to_index s ∧ p.s_to_index s < p.s_size := by
  have htz : (t : ℤ) ≤ (p.T : ℤ) := Int.ofNat_le.mpr ht
  have h1 : p.upper_limit * t ≤ p.upper_limit * p.T :=
    mul_le_mul_of_nonneg_left htz hu
  have h2 : p.lower_limit * p.T ≤ p.lower_limit * t :=
    mul_le_mul_of_nonpos_left htz hl
  unfold Params.min_remaining Params.max_remaining Params.s_to_index Params.s_size
    Params.min_remaining Params.max_remaining at *
  omega

/-- Witness for the amended C5 at `V = 4`, `T = 2`, bounds `[0, 4]`,
`t = 1`, `s = 2`. -/
theorem claim_C5_witness :
    (Params.min_remaining ⟨4, [1, 1], 2, 1/2, 0, 4⟩ 2 ≤ 2 ∧
      (2:ℤ) ≤ Params.max_remaining ⟨4, [1, 1], 2, 1/2, 0, 4⟩ 2) ∧
    0 ≤ Params.s_to_index ⟨4, [1, 1], 2, 1/2, 0, 4⟩ 2 ∧
      Params.s_to_index ⟨4, [1, 1], 2, 1/2, 0, 4⟩ 2 <
        Params.s_size ⟨4, [1, 1], 2, 1/2, 0, 4⟩ :=
  claim_C5 ⟨4, [1, 1], 2, 1/2, 0, 4⟩ (by decide) (by decide) 1 (by decide) 2
    (by decide) (by decide)

/-! ## Claim C6 -/

/-- C6 (evidence of the code bug): at the infeasible instance `V = 5`,
`T = 2`, bounds `[0, 1]` — the total range `[0, 2]` does not contain
`5` — `best_respond` surfaces no error at all: it silently returns the
trajectory `[0, 0]` assembled from the zero-initialized actions of
unreached (sentinel-cost) table entries, contradicting the claimed
explicit infeasibility error. -/
theorem claim_C6_bug :
    best_respond 5 [0, 0] 2 0 0 1 = some [0, 0] ∧
    ¬ ((2:ℤ) * 0 ≤ 5 ∧ (5:ℤ) ≤ 2 * 1) := by decide

/-! ## Claims C1, C3, C4, C9: counterexamples -/

/-- C1 counterexample: `V = -1`, `bnow = [0]`, `T = 1`, `kappa = 0`,
bounds `[-2, -1]` is a feasible instance (`1·(-2) ≤ -1 ≤ 1·(-1)`), yet
`best_respond` returns `[0]` (the reconstruction reads the table through
a negative index that numpy wraps around): the returned trajectory is
not feasible and does not attain the minimum cost over feasible
trajectories. -/
theorem claim_C1_cex :
    ((1:ℤ) * (-2) ≤ -1 ∧ (-1:ℤ) ≤ 1 * (-1) ∧ (-2:ℤ) ≤ -1 ∧ (0:ℚ) ≤ 0) ∧
    ¬ ∃ a c, best_respond (-1) [0] 1 0 (-2) (-1) = some a ∧
        Params.Feasible ⟨-1, [0], 1, 0, -2, -1⟩ a ∧
        total_cost (a.map fun z : ℤ => (z : ℚ)) [0] 0 = some c ∧
        ∀ a' c', Params.Feasible ⟨-1, [0], 1, 0, -2, -1⟩ a' →
          total_cost (a'.map fun z : ℤ => (z : ℚ)) [0] 0 = some c' → c ≤ c' := by
  refine ⟨by norm_num, ?_⟩
  rintro ⟨a, c, hbr, hfeas, -, -⟩
  have hbr0 : best_respond (-1) [0] 1 0 (-2) (-1) = some [0] := by decide
  rw [hbr0, Option.some_inj] at hbr
  subst hbr
  have h2 : (0:ℤ) ≤ -1 := (hfeas.2.1 0 (by simp)).2
  exact absurd h2 (by decide)

/-- C3 counterexample: at the same feasible instance the trajectory
returned is `[0]`, whose sum `0` differs from `V = -1`: budget
conservation fails. -/
theorem claim_C3_cex :
    ((1:ℤ) * (-2) ≤ -1 ∧ (-1:ℤ) ≤ 1 * (-1) ∧ (-2:ℤ) ≤ -1) ∧
    ¬ ∃ a, best_respond (-1) [0] 1 0 (-2) (-1) = some a ∧
        a.length = 1 ∧ a.sum = -1 := by
  refine ⟨by norm_num, ?_⟩
  rintro ⟨a, hbr, -, hsum⟩
  have hbr0 : best_respond (-1) [0] 1 0 (-2) (-1) = some [0] := by decide
  rw [hbr0, Option.some_inj] at hbr
  subst hbr
  simp at hsum

/-- C4 counterexample: at the same feasible instance the returned entry
`0` lies outside `[lower_limit, upper_limit] = [-2, -1]`. -/
theorem claim_C4_cex :
    ((1:ℤ) * (-2) ≤ -1 ∧ (-1:ℤ) ≤ 1 * (-1) ∧ (-2:ℤ) ≤ -1) ∧
    ¬ ∃ a, best_respond (-1) [0] 1 0 (-2) (-1) = some a ∧
        a.length = 1 ∧ ∀ x ∈ a, (-2:ℤ) ≤ x ∧ x ≤ -1 := by
  refine ⟨by norm_num, ?_⟩
  rintro ⟨a, hbr, -, hbnd⟩
  have hbr0 : best_respond (-1) [0] 1 0 (-2) (-1) = some [0] := by decide
  rw [hbr0, Option.some_inj] at hbr
  subst hbr
  have h2 : (0:ℤ) ≤ -1 := (hbnd 0 (by simp)).2
  exact absurd h2 (by decide)

/-- C9 counterexample: `T = 1` with `V = -1` feasible for bounds
`[-2, -1]`, yet the returned trajectory is `[0]`, not `[V]` — the
reconstruction index `s_to_index(V) = upper_limit < 0` wraps around. -/
theorem claim_C9_cex :
    ((-2:ℤ) ≤ -1 ∧ (-2:ℤ) ≤ -1 ∧ (-1:ℤ) ≤ -1) ∧
    best_respond (-1) [0] 1 0 (-2) (-1) = some [0] ∧
    best_respond (-1) [0] 1 0 (-2) (-1) ≠ some [-1] := by decide

/-! ## Claim C7: counterexample -/

/-- C7 counterexample: at the feasible instance `V = 2`, `T = 2`, bounds
`[0, 1]`, the state `s = 2` lies in the feasible window `[1, 2]` at the
terminal step `t = 1`, but it is unreached (`2 > upper_limit`): the
recorded action is the zero default, not `s = 2` as the claimed
invariant requires for every in-window state. -/
theorem claim_C7_cex :
    ((2:ℤ) * 0 ≤ 2 ∧ (2:ℤ) ≤ 2 * 1) ∧
    (Params.min_remaining ⟨2, [0, 0], 2, 0, 0, 1⟩ 1 ≤ 2 ∧
      (2:ℤ) ≤ Params.max_remaining ⟨2, [0, 0], 2, 0, 0, 1⟩ 1) ∧
    Params.actAt ⟨2, [0, 0], 2, 0, 0, 1⟩ 1 2 = some 0 ∧ (0:ℤ) ≠ 2 := by decide

/-! ## The `np.inf` comparison order -/

theorem optLT_irrefl (x : Option ℚ) : optLT x x = false := by
  cases x <;> simp [optLT]

theorem optLT_some_of_true {x y : Option ℚ} (h : optLT x y = true) : ∃ v, x = some v := by
  cases x
  · simp [optLT] at h
  · exact ⟨_, rfl⟩

theorem optLT_asymm_of {x m y : Option ℚ} (hx : optLT x m = true) (hy : optLT y m = false) :
    optLT y x = false := by
  cases x <;> cases m <;> cases y <;> simp_all [optLT] <;> linarith

theorem optLT_trans_of {x m y : Option ℚ} (hx : optLT x m = true) (hy : optLT y m = false) :
    optLT x y = true := by
  cases x <;> cases m <;> cases y <;> simp_all [optLT] <;> linarith

theorem le_of_optLT_false {v w : ℚ} (h : optLT (some w) (some v) = false) : v ≤ w := by
  simpa [optLT] using h

theorem optLT_none_right_false {x : Option ℚ} (h : optLT x none = false) : x = none := by
  cases x
  · rfl
  · simp [optLT] at h

/-! ## The strict-argmin scan

The inner `q` loop keeps the first strict improvement only; processing
candidates `lo, lo+1, …, lo+n-1` in order therefore ends in the first
candidate attaining the minimum (`np.inf` = `none` never wins). -/

theorem scanFold_char (f : ℤ → Option ℚ) (lo : ℤ) (n : ℕ) :
    ∀ F, F = ((List.range n).map fun k : ℕ => lo + (k : ℤ)).foldl
        (fun st q => if optLT (f q) st.1 then (f q, some q) else st)
        ((none : Option ℚ), (none : Option ℤ)) →
      (F = (none, none) ∧ ∀ q, lo ≤ q → q < lo + n → f q = none) ∨
      (∃ q0 v0, lo ≤ q0 ∧ q0 < lo + n ∧ F = (some v0, some q0) ∧ f q0 = some v0 ∧
        (∀ q, lo ≤ q → q < lo + n → optLT (f q) (f q0) = false) ∧
        (∀ q, lo ≤ q → q < q0 → optLT (f q0) (f q) = true)) := by
  induction n with
  | zero =>
      intro F hF
      left
      refine ⟨by simpa using hF, fun q h1 h2 => absurd (lt_of_le_of_lt h1 h2) (by omega)⟩
  | succ n ih =>
      intro F hF
      rw [List.range_succ, List.map_append, List.foldl_append] at hF
      rcases ih _ rfl with ⟨hprev, hall⟩ | ⟨q0, v0, hq0l, hq0r, hprev, hfq0, hmin, hfirst⟩
      · rw [hprev] at hF
        simp only [List.map_cons, List.map_nil, List.foldl_cons, List.foldl_nil] at hF
        by_cases hc : optLT (f (lo + (n : ℤ))) none = true
        · obtain ⟨v, hv⟩ := optLT_some_of_true hc
          right
          refine ⟨lo + n, v, by omega, by omega, ?_, hv, ?_, ?_⟩
          · rw [hF, if_pos hc, hv]
          · intro q h1 h2
            rcases lt_or_eq_of_le (show q ≤ lo + (n:ℤ) by omega) with h | h
            · rw [hall q h1 h]; rfl
            · rw [h]; exact optLT_irrefl _
          · intro q h1 h2
            rw [hall q h1 h2, hv]; rfl
        · left
          rw [Bool.not_eq_true] at hc
          refine ⟨by rw [hF, if_neg (by simp [hc])], fun q h1 h2 => ?_⟩
          rcases lt_or_eq_of_le (show q ≤ lo + (n:ℤ) by omega) with h | h
          · exact hall q h1 h
          · rw [h]
            exact optLT_none_right_false hc
      · rw [hprev] at hF
        simp only [List.map_cons, List.map_nil, List.foldl_cons, List.foldl_nil] at hF
        by_cases hc : optLT (f (lo + (n : ℤ))) (some v0) = true
        · obtain ⟨v, hv⟩ := optLT_some_of_true hc
          right
          refine ⟨lo + n, v, by omega, by omega, ?_, hv, ?_, ?_⟩
          · rw [hF, if_pos hc, hv]
          · intro q h1 h2
            rcases lt_or_eq_of_le (show q ≤ lo + (n:ℤ) by omega) with h | h
            · have h5 := hmin q h1 h
              rw [hfq0] at h5
              exact optLT_asymm_of hc h5
            · rw [h]; exact optLT_irrefl _
          · intro q h1 h2
            have h5 := hmin q h1 (by omega)
            rw [hfq0] at h5
            exact optLT_trans_of hc h5
        · right
          rw [Bool.not_eq_true] at hc
          refine ⟨q0, v0, hq0l, by omega, ?_, hfq0, ?_, hfirst⟩
          · rw [hF, if_neg (by simp [hc])]
          · intro q h1 h2
            rcases lt_or_eq_of_le (show q ≤ lo + (n:ℤ) by omega) with h | h
            · exact hmin q h1 h
            · rw [h, hfq0]
              exact hc

/-- The characterization of `qScan`: either no candidate is finite and
the scan yields `(none, none)`, or the scan yields the first candidate
attaining the (finite) minimum. -/
theorem qScan_char (p : Params) (cN : ℤ → Option ℚ) (t : ℕ) (s : ℤ) :
    (p.qScan cN t s = (none, none) ∧
      ∀ q, p.lower_limit ≤ q → q ≤ p.upper_limit → p.cand cN t s q = none) ∨
    (∃ q0 v0, p.lower_limit ≤ q0 ∧ q0 ≤ p.upper_limit ∧
      p.qScan cN t s = (some v0, some q0) ∧ p.cand cN t s q0 = some v0 ∧
      (∀ q, p.lower_limit ≤ q → q ≤ p.upper_limit →
        optLT (p.cand cN t s q) (p.cand cN t s q0) = false) ∧
      (∀ q, p.lower_limit ≤ q → q < q0 → optLT (p.cand cN t s q0) (p.cand cN t s q) = true)) := by
  have hmain := scanFold_char (p.cand cN t s) p.lower_limit
    (p.upper_limit + 1 - p.lower_limit).toNat (p.qScan cN t s) rfl
  rcases hmain with ⟨h1, h2⟩ | ⟨q0, v0, hq0l, hq0r, hF, hfq0, hmin, hfirst⟩
  · left
    exact ⟨h1, fun q hq1 hq2 => h2 q hq1 (by omega)⟩
  · right
    exact ⟨q0, v0, hq0l, by omega, hF, hfq0,
      fun q hq1 hq2 => hmin q hq1 (by omega), hfirst⟩

/-! ## Window arithmetic -/

theorem window_nested (p : Params) (hl : p.lower_limit ≤ 0) (hu : 0 ≤ p.upper_limit)
    {t : ℕ} (ht : t ≤ p.T) {s : ℤ}
    (hs1 : p.min_remaining t ≤ s) (hs2 : s ≤ p.max_remaining t) :
    (p.min_remaining p.T ≤ s ∧ s ≤ p.max_remaining p.T) ∧
    0 ≤ p.s_to_index s ∧ p.s_to_index s < p.s_size := by
  have htz : (t : ℤ) ≤ (p.T : ℤ) := Int.ofNat_le.mpr ht
  have h1 : p.upper_limit * t ≤ p.upper_limit * p.T := mul_le_mul_of_nonneg_left htz hu
  have h2 : p.lower_limit * p.T ≤ p.lower_limit * t := mul_le_mul_of_nonpos_left htz hl
  unfold Params.min_remaining Params.max_remaining Params.s_to_index Params.s_size
    Params.min_remaining Params.max_remaining at *
  omega

theorem min_remaining_succ (p : Params) (t : ℕ) :
    p.min_remaining (t + 1) = p.min_remaining t - p.upper_limit := by
  unfold Params.min_remaining; push_cast; ring

theorem max_remaining_succ (p : Params) (t : ℕ) :
    p.max_remaining (t + 1) = p.max_remaining t - p.lower_limit := by
  unfold Params.max_remaining; push_cast; ring

/-- One window step: trading `q ∈ [lower_limit, upper_limit]` from a
state of the window at `t` lands in the window at `t + 1`. -/
theorem window_step (p : Params) {t : ℕ} {s q : ℤ}
    (hs1 : p.min_remaining t ≤ s) (hs2 : s ≤ p.max_remaining t)
    (hq1 : p.lower_limit ≤ q) (hq2 : q ≤ p.upper_limit) :
    p.min_remaining (t + 1) ≤ s - q ∧ s - q ≤ p.max_remaining (t + 1) := by
  rw [min_remaining_succ, max_remaining_succ]
  omega

/-- Completability propagates one step: if `s` can be traded off in
`k + 2` bounded steps, some admissible first trade leaves a state that
can be traded off in `k + 1` steps. -/
theorem compl_step {l u s : ℤ} {k : ℕ} (hlu : l ≤ u)
    (h1 : l * ((k : ℤ) + 2) ≤ s) (h2 : s ≤ u * ((k : ℤ) + 2)) :
    ∃ q, l ≤ q ∧ q ≤ u ∧ l * ((k : ℤ) + 1) ≤ s - q ∧ s - q ≤ u * ((k : ℤ) + 1) := by
  have e1 : l * ((k : ℤ) + 2) = l * ((k : ℤ) + 1) + l := by ring
  have e2 : u * ((k : ℤ) + 2) = u * ((k : ℤ) + 1) + u := by ring
  have e3 : l * ((k : ℤ) + 1) ≤ u * ((k : ℤ) + 1) :=
    mul_le_mul_of_nonneg_right hlu (by positivity)
  rcases le_or_lt u (s - l * ((k : ℤ) + 1)) with h | h
  · exact ⟨u, hlu, le_refl u, by omega, by omega⟩
  · rcases le_or_lt (s - l * ((k : ℤ) + 1)) l with h' | h'
    · exact ⟨l, le_refl l, hlu, by omega, by omega⟩
    · exact ⟨s - l * ((k : ℤ) + 1), le_of_lt h', le_of_lt h, by omega, by omega⟩

/-- Conversely, an admissible first trade from a `k+1`-step-completable
state makes the original state `k+2`-step completable. -/
theorem compl_unstep {l u s q : ℤ} {k : ℕ} (hq1 : l ≤ q) (hq2 : q ≤ u)
    (h1 : l * ((k : ℤ) + 1) ≤ s - q) (h2 : s - q ≤ u * ((k : ℤ) + 1)) :
    l * ((k : ℤ) + 2) ≤ s ∧ s ≤ u * ((k : ℤ) + 2) := by
  have e1 : l * ((k : ℤ) + 2) = l * ((k : ℤ) + 1) + l := by ring
  have e2 : u * ((k : ℤ) + 2) = u * ((k : ℤ) + 1) + u := by ring
  omega

/-- A list of `n` entries all within `[l, u]` sums into `[l*n, u*n]`. -/
theorem sum_bounds {l u : ℤ} :
    ∀ qs : List ℤ, (∀ x ∈ qs, l ≤ x ∧ x ≤ u) →
      l * (qs.length : ℤ) ≤ qs.sum ∧ qs.sum ≤ u * (qs.length : ℤ) := by
  intro qs
  induction qs with
  | nil => intro _; simp
  | cons x xs ih =>
      intro h
      obtain ⟨h1, h2⟩ := ih fun y hy => h y (List.mem_cons_of_mem _ hy)
      obtain ⟨hx1, hx2⟩ := h x (List.mem_cons_self _ _)
      simp only [List.sum_cons, List.length_cons]
      have e1 : l * (((xs.length : ℤ)) + 1) = l * (xs.length : ℤ) + l := by ring
      have e2 : u * (((xs.length : ℤ)) + 1) = u * (xs.length : ℤ) + u := by ring
      push_cast
      omega

/-! ## Access lemmas for the opponent arrays -/

theorem b_length (p : Params) : p.b.length = p.T := by
  simp [Params.b]

theorem b_getD (p : Params) (i : ℕ) (h : i < p.T) :
    p.b.getD i 0 = (p.bnow.take (i + 1)).sum := by
  unfold Params.b
  rw [List.getD_eq_getElem?_getD, List.getElem?_map, List.getElem?_range h]
  rfl

theorem npGetList_b_pred (p : Params) (t : ℕ) (h1 : 1 ≤ t) (ht : t ≤ p.T) :
    npGetList p.b ((t : ℤ) - 1) = some (p.Bcum t) := by
  have e : ((t : ℤ) - 1) = ((t - 1 : ℕ) : ℤ) := by omega
  rw [e, npGetList_eq_getD _ _ (by rw [b_length]; omega), b_getD _ _ (by omega)]
  have e2 : t - 1 + 1 = t := by omega
  rw [e2]
  rfl

theorem immStep_eq (p : Params) (hb : p.bnow.length = p.T) {t : ℕ} (ht : t < p.T) (s q : ℤ) :
    p.immStep t s q = some (p.immCost t s q) := by
  unfold Params.immStep Params.immCost
  by_cases h0 : t = 0
  · subst h0
    rw [if_pos rfl, if_pos rfl]
    have h := npGetList_eq_getD p.bnow 0 (by omega)
    have e : ((0 : ℕ) : ℤ) = (0 : ℤ) := rfl
    rw [e] at h
    rw [h]
    rfl
  · rw [if_neg h0, if_neg h0,
      npGetList_eq_getD p.bnow t (by omega),
      npGetList_b_pred p t (by omega) (by omega)]
    rfl

/-! ## Equations for the pointwise tables -/

theorem dpCk_zero_eq (p : Params) (s : ℤ) :
    p.dpCk 0 s =
      if (p.min_remaining p.T ≤ s ∧ s ≤ p.max_remaining p.T) ∧
          p.lower_limit ≤ s ∧ s ≤ p.upper_limit
      then (some (p.baseCost s), s) else (none, 0) := rfl

theorem dpCk_succ_eq (p : Params) (k : ℕ) (s : ℤ) :
    p.dpCk (k + 1) s =
      if p.min_remaining (p.T - 2 - k) ≤ s ∧ s ≤ p.max_remaining (p.T - 2 - k) then
        ((p.qScan (fun s' => (p.dpCk k s').1) (p.T - 2 - k) s).1,
          ((p.qScan (fun s' => (p.dpCk k s').1) (p.T - 2 - k) s).2).getD 0)
      else (none, 0) := rfl

/-! ## The backward-induction invariants, on the pointwise tables -/

theorem dpCk_spec (p : Params) (hl : p.lower_limit ≤ 0) (hu : 0 ≤ p.upper_limit)
    (hT : 1 ≤ p.T) :
    ∀ k : ℕ, k ≤ p.T - 1 → ∀ s : ℤ,
      p.min_remaining (p.T - 1 - k) ≤ s → s ≤ p.max_remaining (p.T - 1 - k) →
      (((p.dpCk k s).1 = none ↔
          ¬(p.lower_limit * ((k : ℤ) + 1) ≤ s ∧ s ≤ p.upper_limit * ((k : ℤ) + 1))) ∧
        (¬(p.lower_limit * ((k : ℤ) + 1) ≤ s ∧ s ≤ p.upper_limit * ((k : ℤ) + 1)) →
          (p.dpCk k s).2 = 0)) ∧
      ((p.lower_limit * ((k : ℤ) + 1) ≤ s ∧ s ≤ p.upper_limit * ((k : ℤ) + 1)) →
        (p.lower_limit ≤ (p.dpCk k s).2 ∧ (p.dpCk k s).2 ≤ p.upper_limit) ∧
        (k = 0 → (p.dpCk k s).2 = s) ∧
        (∀ k' : ℕ, k = k' + 1 →
          (p.lower_limit * ((k' : ℤ) + 1) ≤ s - (p.dpCk k s).2 ∧
            s - (p.dpCk k s).2 ≤ p.upper_limit * ((k' : ℤ) + 1)) ∧
          (p.dpCk k s).1 = ((p.dpCk k' (s - (p.dpCk k s).2)).1).map
            (fun w => w + p.immCost (p.T - 1 - k) s (p.dpCk k s).2))) := by
  intro k
  induction k with
  | zero =>
      intro _ s hs1 hs2
      have hw := window_nested p hl hu (t := p.T - 1) (by omega) hs1 hs2
      have e1 : p.lower_limit * ((0 : ℤ) + 1) = p.lower_limit := by ring
      have e2 : p.upper_limit * ((0 : ℤ) + 1) = p.upper_limit := by ring
      simp only [Nat.cast_zero] at *
      rw [dpCk_zero_eq]
      by_cases hg : p.lower_limit ≤ s ∧ s ≤ p.upper_limit
      · rw [if_pos ⟨hw.1, hg⟩]
        refine ⟨⟨by simp; omega, fun hn => absurd (by omega) hn⟩, fun _ => ?_⟩
        exact ⟨by simpa using hg, fun _ => rfl, fun k' hk' => by omega⟩
      · rw [if_neg (fun hcon => hg hcon.2)]
        exact ⟨⟨by simp; omega, fun _ => rfl⟩, fun hc => absurd (by omega) hg⟩
  | succ k ih =>
      intro hk1 s hs1 hs2
      have hrow : p.T - 1 - (k + 1) = p.T - 2 - k := by omega
      have hrow1 : p.T - 2 - k + 1 = p.T - 1 - k := by omega
      have el : p.lower_limit * (((k + 1 : ℕ) : ℤ) + 1) = p.lower_limit * ((k : ℤ) + 2) := by
        push_cast; ring
      have eu : p.upper_limit * (((k + 1 : ℕ) : ℤ) + 1) = p.upper_limit * ((k : ℤ) + 2) := by
        push_cast; ring
      rw [hrow] at hs1 hs2 ⊢
      rw [el, eu]
      have ihk := ih (by omega)
      have hcand : ∀ q, p.lower_limit ≤ q → q ≤ p.upper_limit →
          (p.cand (fun s' => (p.dpCk k s').1) (p.T - 2 - k) s q = none ↔
            ¬(p.lower_limit * ((k : ℤ) + 1) ≤ s - q ∧
              s - q ≤ p.upper_limit * ((k : ℤ) + 1))) := by
        intro q hq1 hq2
        have hwin := window_step p hs1 hs2 hq1 hq2
        rw [hrow1] at hwin
        have h := (ihk (s - q) hwin.1 hwin.2).1.1
        simp only [Params.cand]
        rw [← h]
        cases (p.dpCk k (s - q)).1 <;> simp
      rcases qScan_char p (fun s' => (p.dpCk k s').1) (p.T - 2 - k) s with
        ⟨hsc, hall⟩ | ⟨q0, v0, hq0l, hq0u, hsc, hcand0, hmin, hfirst⟩
      · have hval : p.dpCk (k + 1) s = (none, 0) := by
          rw [dpCk_succ_eq, if_pos ⟨hs1, hs2⟩, hsc]
          rfl
        have hnc : ¬(p.lower_limit * ((k : ℤ) + 2) ≤ s ∧
            s ≤ p.upper_limit * ((k : ℤ) + 2)) := by
          rintro ⟨hc1, hc2⟩
          obtain ⟨q, hq1, hq2, hq3, hq4⟩ := compl_step (le_trans hl hu) hc1 hc2
          exact ((hcand q hq1 hq2).mp (hall q hq1 hq2)) ⟨hq3, hq4⟩
        rw [hval]
        exact ⟨⟨⟨fun _ => hnc, fun _ => rfl⟩, fun _ => rfl⟩, fun hc => absurd hc hnc⟩
      · have hval : p.dpCk (k + 1) s = (some v0, q0) := by
          rw [dpCk_succ_eq, if_pos ⟨hs1, hs2⟩, hsc]
          rfl
        have hfin : p.cand (fun s' => (p.dpCk k s').1) (p.T - 2 - k) s q0 ≠ none := by
          rw [hcand0]; exact Option.some_ne_none v0
        have hcmpk := not_not.mp (fun hcon => hfin ((hcand q0 hq0l hq0u).mpr hcon))
        have hcmp := compl_unstep hq0l hq0u hcmpk.1 hcmpk.2
        rw [hval]
        refine ⟨⟨⟨fun hcon => absurd hcon (Option.some_ne_none v0),
            fun hcon => absurd hcmp hcon⟩, fun hcon => absurd hcmp hcon⟩, fun _ => ?_⟩
        refine ⟨⟨hq0l, hq0u⟩, fun h0 => absurd h0 (Nat.succ_ne_zero k), fun k' hk' => ?_⟩
        have hkk : k = k' := by omega
        subst hkk
        refine ⟨hcmpk, ?_⟩
        have hcv : p.cand (fun s' => (p.dpCk k s').1) (p.T - 2 - k) s q0 =
            ((p.dpCk k (s - q0)).1).map (fun w => w + p.immCost (p.T - 2 - k) s q0) := rfl
        rw [hcand0] at hcv
        exact hcv

/-- Optimality of the pointwise cost table: for a horizon of at least
two steps, every completable in-window state carries the minimum suffix
cost over the feasible suffixes, and some feasible suffix attains it. -/
theorem dpCk_opt (p : Params) (hl : p.lower_limit ≤ 0) (hu : 0 ≤ p.upper_limit)
    (hT2 : 2 ≤ p.T) :
    ∀ k : ℕ, k ≤ p.T - 1 → ∀ s : ℤ,
      p.min_remaining (p.T - 1 - k) ≤ s → s ≤ p.max_remaining (p.T - 1 - k) →
      (p.lower_limit * ((k : ℤ) + 1) ≤ s ∧ s ≤ p.upper_limit * ((k : ℤ) + 1)) →
      ∃ v, (p.dpCk k s).1 = some v ∧
        (∃ qs, qs.length = k + 1 ∧
          (∀ x ∈ qs, p.lower_limit ≤ x ∧ x ≤ p.upper_limit) ∧ qs.sum = s ∧
          p.suffCost (p.T - 1 - k) s qs = v) ∧
        (∀ qs, qs.length = k + 1 →
          (∀ x ∈ qs, p.lower_limit ≤ x ∧ x ≤ p.upper_limit) → qs.sum = s →
          v ≤ p.suffCost (p.T - 1 - k) s qs) := by
  intro k
  induction k with
  | zero =>
      intro _ s hs1 hs2 hcmp
      simp only [Nat.cast_zero, zero_add, mul_one] at hcmp
      have hw := window_nested p hl hu (t := p.T - 1) (by omega) hs1 hs2
      have hbc : p.baseCost s = p.immCost (p.T - 1) s s := by
        unfold Params.baseCost Params.immCost Params.bT2
        rw [if_neg (by omega : ¬ p.T = 1), if_neg (by omega : ¬ p.T - 1 = 0)]
      refine ⟨p.baseCost s, by rw [dpCk_zero_eq, if_pos ⟨hw.1, hcmp⟩], ⟨[s], rfl, ?_, ?_, ?_⟩, ?_⟩
      · intro x hx
        rw [List.mem_singleton] at hx
        subst hx
        exact hcmp
      · simp
      · show p.immCost (p.T - 1) s s + p.suffCost (p.T - 1 + 1) (s - s) [] = p.baseCost s
        simp only [Params.suffCost, add_zero]
        exact hbc.symm
      · intro qs hlen hbnd hsum
        match qs, hlen with
        | [x], _ =>
            rw [List.sum_cons, List.sum_nil, add_zero] at hsum
            subst hsum
            show p.baseCost x ≤ p.immCost (p.T - 1) x x + p.suffCost (p.T - 1 + 1) (x - x) []
            simp only [Params.suffCost, add_zero]
            exact le_of_eq hbc
  | succ k ih =>
      intro hk1 s hs1 hs2 hcmp
      have hrow : p.T - 1 - (k + 1) = p.T - 2 - k := by omega
      have hrow1 : p.T - 2 - k + 1 = p.T - 1 - k := by omega
      have el : p.lower_limit * (((k + 1 : ℕ) : ℤ) + 1) = p.lower_limit * ((k : ℤ) + 2) := by
        push_cast; ring
      have eu : p.upper_limit * (((k + 1 : ℕ) : ℤ) + 1) = p.upper_limit * ((k : ℤ) + 2) := by
        push_cast; ring
      rw [hrow] at hs1 hs2 ⊢
      rw [el, eu] at hcmp
      have ihk := ih (by omega)
      rcases qScan_char p (fun s' => (p.dpCk k s').1) (p.T - 2 - k) s with
        ⟨hsc, hall⟩ | ⟨q0, v0, hq0l, hq0u, hsc, hcand0, hmin, hfirst⟩
      · exfalso
        obtain ⟨q, hq1, hq2, hq3, hq4⟩ := compl_step (le_trans hl hu) hcmp.1 hcmp.2
        have hwin := window_step p hs1 hs2 hq1 hq2
        rw [hrow1] at hwin
        have hA := (dpCk_spec p hl hu (by omega) k (by omega) (s - q) hwin.1 hwin.2).1.1
        have hnone : (p.dpCk k (s - q)).1 = none := by
          have hcq := hall q hq1 hq2
          simp only [Params.cand] at hcq
          cases hdp : (p.dpCk k (s - q)).1
          · rfl
          · rw [hdp] at hcq; simp at hcq
        exact absurd ⟨hq3, hq4⟩ (hA.mp hnone)
      · have hval : p.dpCk (k + 1) s = (some v0, q0) := by
          rw [dpCk_succ_eq, if_pos ⟨hs1, hs2⟩, hsc]; rfl
        have hwin0 := window_step p hs1 hs2 hq0l hq0u
        rw [hrow1] at hwin0
        obtain ⟨w, hw, hvw⟩ : ∃ w, (p.dpCk k (s - q0)).1 = some w ∧
            v0 = w + p.immCost (p.T - 2 - k) s q0 := by
          simp only [Params.cand] at hcand0
          cases hdp : (p.dpCk k (s - q0)).1
          · rw [hdp] at hcand0; simp at hcand0
          · rw [hdp] at hcand0
            simp only [Option.map_some'] at hcand0
            exact ⟨_, rfl, (Option.some_inj.mp hcand0).symm⟩
        have hA := (dpCk_spec p hl hu (by omega) k (by omega) (s - q0) hwin0.1 hwin0.2).1.1
        have hcmpk : p.lower_limit * ((k : ℤ) + 1) ≤ s - q0 ∧
            s - q0 ≤ p.upper_limit * ((k : ℤ) + 1) := by
          by_contra hcon
          rw [hA.mpr hcon] at hw
          exact Option.noConfusion hw
        obtain ⟨w', hw', hatt, hlb⟩ := ihk (s - q0) hwin0.1 hwin0.2 hcmpk
        have hww : w' = w := by
          rw [hw] at hw'
          exact (Option.some_inj.mp hw').symm
        subst hww
        refine ⟨v0, by rw [hval], ?_, ?_⟩
        · obtain ⟨qs', hlen', hbnd', hsum', hcost'⟩ := hatt
          refine ⟨q0 :: qs', by simp [hlen'], ?_, ?_, ?_⟩
          · intro x hx
            rcases List.mem_cons.mp hx with h | h
            · subst h; exact ⟨hq0l, hq0u⟩
            · exact hbnd' x h
          · rw [List.sum_cons, hsum']; ring
          · show p.immCost (p.T - 2 - k) s q0 +
                p.suffCost (p.T - 2 - k + 1) (s - q0) qs' = v0
            rw [hrow1, hcost', hvw]
            ring
        · intro qs hlen hbnd hsum
          match qs, hlen with
          | q :: rest, hlen =>
            have hq := hbnd q (List.mem_cons_self _ _)
            have hrest : ∀ x ∈ rest, p.lower_limit ≤ x ∧ x ≤ p.upper_limit :=
              fun x hx => hbnd x (List.mem_cons_of_mem _ hx)
            have hlenr : rest.length = k + 1 := by simpa using hlen
            have hsumr : rest.sum = s - q := by
              rw [List.sum_cons] at hsum
              omega
            have hcmpr := sum_bounds rest hrest
            rw [hlenr, hsumr] at hcmpr
            have hwinr := window_step p hs1 hs2 hq.1 hq.2
            rw [hrow1] at hwinr
            obtain ⟨w2, hw2, -, hlb2⟩ := ihk (s - q) hwinr.1 hwinr.2
              (by push_cast at hcmpr ⊢; exact hcmpr)
            have hlb2r := hlb2 rest hlenr hrest hsumr
            have hcq : p.cand (fun s' => (p.dpCk k s').1) (p.T - 2 - k) s q =
                some (w2 + p.immCost (p.T - 2 - k) s q) := by
              simp only [Params.cand, hw2, Option.map_some']
            have hm := hmin q hq.1 hq.2
            rw [hcq, hcand0] at hm
            have hv0w2 := le_of_optLT_false hm
            show v0 ≤ p.immCost (p.T - 2 - k) s q +
              p.suffCost (p.T - 2 - k + 1) (s - q) rest
            rw [hrow1]
            linarith

/-! ## Bridging the fold-based tables to the pointwise tables -/

theorem sList_nodup (lo hi : ℤ) : (sList lo hi).Nodup := by
  unfold sList
  exact (List.nodup_range _).map fun a b h => by omega

theorem resolve_idx (p : Params) (hl : p.lower_limit ≤ 0) (hu : 0 ≤ p.upper_limit)
    {t : ℕ} (ht : t ≤ p.T) {s : ℤ}
    (hs1 : p.min_remaining t ≤ s) (hs2 : s ≤ p.max_remaining t) :
    npIndex p.s_size (p.s_to_index s) = some (p.s_to_index s) := by
  obtain ⟨-, h1, h2⟩ := window_nested p hl hu ht hs1 hs2
  exact npIndex_of_in_range h1 h2

theorem npGetList_wrap (xs : List ℚ) (i : ℤ) (h1 : -(xs.length : ℤ) ≤ i) (h2 : i < 0) :
    npGetList xs i = npGetList xs (i + xs.length) := by
  unfold npGetList npIndex
  rw [if_neg (by omega), if_pos ⟨h1, h2⟩, if_pos (by omega)]

theorem npGetList_bnow_last (p : Params) (hT : 1 ≤ p.T) (hb : p.bnow.length = p.T) :
    npGetList p.bnow ((p.T : ℤ) - 1) = some (p.bAt (p.T - 1)) := by
  have e : ((p.T : ℤ) - 1) = ((p.T - 1 : ℕ) : ℤ) := by omega
  rw [e, npGetList_eq_getD _ _ (by omega)]
  rfl

theorem npGetList_b_T2 (p : Params) (hT : 1 ≤ p.T) (hb : p.bnow.length = p.T) :
    npGetList p.b ((p.T : ℤ) - 2) = some p.bT2 := by
  by_cases h1 : p.T = 1
  · have e : ((p.T : ℤ) - 2) + (p.b.length : ℤ) = ((p.T - 1 : ℕ) : ℤ) := by
      rw [b_length]; omega
    rw [npGetList_wrap p.b _ (by rw [b_length]; omega) (by omega), e,
      npGetList_eq_getD _ _ (by rw [b_length]; omega), b_getD _ _ (by omega)]
    unfold Params.bT2
    rw [if_pos h1]
    have e2 : p.T - 1 + 1 = 1 := by omega
    rw [e2]
    rfl
  · have e : ((p.T : ℤ) - 2) = ((p.T - 2 : ℕ) : ℤ) := by omega
    rw [e, npGetList_eq_getD _ _ (by rw [b_length]; omega), b_getD _ _ (by omega)]
    unfold Params.bT2
    rw [if_neg h1]
    have e2 : p.T - 2 + 1 = p.T - 1 := by omega
    rw [e2]
    rfl

/-- A single base-case iteration, resolved. -/
theorem baseStep_eq (p : Params) (hl : p.lower_limit ≤ 0) (hu : 0 ≤ p.upper_limit)
    (hT : 1 ≤ p.T) (hb : p.bnow.length = p.T) (ca : Params.CostTab × Params.ActTab) (s : ℤ)
    (hs1 : p.min_remaining p.T ≤ s) (hs2 : s ≤ p.max_remaining p.T) :
    p.baseStep ca s = some (if p.lower_limit ≤ s ∧ s ≤ p.upper_limit then
      (Params.writeC ca.1 (p.T - 1) (p.s_to_index s) (p.baseCost s),
        Params.writeA ca.2 (p.T - 1) (p.s_to_index s) s)
    else ca) := by
  unfold Params.baseStep
  by_cases hg : p.lower_limit ≤ s ∧ s ≤ p.upper_limit
  · rw [if_pos hg, if_pos hg, resolve_idx p hl hu (le_refl p.T) hs1 hs2,
      npGetList_bnow_last p hT hb, npGetList_b_T2 p hT hb]
    rfl
  · rw [if_neg hg, if_neg hg]
    rfl

/-- The base-case loop writes exactly the bottom row of the pointwise
tables and touches nothing else. -/
theorem baseFold_char (p : Params) (hl : p.lower_limit ≤ 0) (hu : 0 ≤ p.upper_limit)
    (hT : 1 ≤ p.T) (hb : p.bnow.length = p.T) :
    ∀ L : List ℤ, (∀ s ∈ L, p.min_remaining p.T ≤ s ∧ s ≤ p.max_remaining p.T) →
    ∀ ca : Params.CostTab × Params.ActTab,
      ∃ ca', L.foldlM p.baseStep ca = some ca' ∧
        (∀ t j, t ≠ p.T - 1 → ca'.1 t j = ca.1 t j ∧ ca'.2 t j = ca.2 t j) ∧
        (∀ j : ℤ, (j + p.min_remaining p.T) ∈ L →
          (ca'.1 (p.T - 1) j, ca'.2 (p.T - 1) j) =
            if p.lower_limit ≤ j + p.min_remaining p.T ∧
                j + p.min_remaining p.T ≤ p.upper_limit
            then (some (p.baseCost (j + p.min_remaining p.T)), j + p.min_remaining p.T)
            else (ca.1 (p.T - 1) j, ca.2 (p.T - 1) j)) ∧
        (∀ j : ℤ, (j + p.min_remaining p.T) ∉ L →
          ca'.1 (p.T - 1) j = ca.1 (p.T - 1) j ∧ ca'.2 (p.T - 1) j = ca.2 (p.T - 1) j) := by
  intro L
  induction L with
  | nil =>
      intro _ ca
      exact ⟨ca, rfl, fun _ _ _ => ⟨rfl, rfl⟩, fun j hj => absurd hj (List.not_mem_nil _),
        fun _ _ => ⟨rfl, rfl⟩⟩
  | cons s L ihL =>
      intro hwin ca
      have hs := hwin s (List.mem_cons_self _ _)
      have hstep := baseStep_eq p hl hu hT hb ca s hs.1 hs.2
      set ca1 := if p.lower_limit ≤ s ∧ s ≤ p.upper_limit then
        (Params.writeC ca.1 (p.T - 1) (p.s_to_index s) (p.baseCost s),
          Params.writeA ca.2 (p.T - 1) (p.s_to_index s) s)
      else ca with hca1
      have hca1_other : ∀ t j, t ≠ p.T - 1 → ca1.1 t j = ca.1 t j ∧ ca1.2 t j = ca.2 t j := by
        intro t j htj
        rw [hca1]
        by_cases hg : p.lower_limit ≤ s ∧ s ≤ p.upper_limit
        · rw [if_pos hg]
          exact ⟨by simp [Params.writeC, htj], by simp [Params.writeA, htj]⟩
        · rw [if_neg hg]; exact ⟨rfl, rfl⟩
      have hca1_row : ∀ j : ℤ, j ≠ p.s_to_index s →
          ca1.1 (p.T - 1) j = ca.1 (p.T - 1) j ∧ ca1.2 (p.T - 1) j = ca.2 (p.T - 1) j := by
        intro j hj
        rw [hca1]
        by_cases hg : p.lower_limit ≤ s ∧ s ≤ p.upper_limit
        · rw [if_pos hg]
          exact ⟨by simp [Params.writeC, hj], by simp [Params.writeA, hj]⟩
        · rw [if_neg hg]; exact ⟨rfl, rfl⟩
      have hca1_hit :
          (ca1.1 (p.T - 1) (p.s_to_index s), ca1.2 (p.T - 1) (p.s_to_index s)) =
            if p.lower_limit ≤ s ∧ s ≤ p.upper_limit
            then (some (p.baseCost s), s)
            else (ca.1 (p.T - 1) (p.s_to_index s), ca.2 (p.T - 1) (p.s_to_index s)) := by
        rw [hca1]
        by_cases hg : p.lower_limit ≤ s ∧ s ≤ p.upper_limit
        · rw [if_pos hg, if_pos hg]
          exact Prod.ext (by simp [Params.writeC]) (by simp [Params.writeA])
        · rw [if_neg hg, if_neg hg]
      obtain ⟨ca', hfold, hother, hhit, hmiss⟩ :=
        ihL (fun x hx => hwin x (List.mem_cons_of_mem _ hx)) ca1
      refine ⟨ca', ?_, ?_, ?_, ?_⟩
      · rw [foldlM_cons_opt, hstep, Option.some_bind]
        exact hfold
      · intro t j htj
        obtain ⟨e1, e2⟩ := hother t j htj
        obtain ⟨e3, e4⟩ := hca1_other t j htj
        exact ⟨e1.trans e3, e2.trans e4⟩
      · intro j hj
        rcases List.mem_cons.mp hj with hcase | hcase
        · have hjidx : j = p.s_to_index s := by
            unfold Params.s_to_index
            omega
          by_cases hmem : (j + p.min_remaining p.T) ∈ L
          · rw [hhit j hmem]
            by_cases hg : p.lower_limit ≤ j + p.min_remaining p.T ∧
                j + p.min_remaining p.T ≤ p.upper_limit
            · rw [if_pos hg, if_pos hg]
            · rw [if_neg hg, if_neg hg]
              rw [hcase] at hg
              rw [hjidx]
              have hthis := hca1_hit
              rw [if_neg hg] at hthis
              exact hthis
          · obtain ⟨e1, e2⟩ := hmiss j hmem
            rw [e1, e2, hcase, hjidx]
            exact hca1_hit
        · rw [hhit j hcase]
          by_cases hg : p.lower_limit ≤ j + p.min_remaining p.T ∧
              j + p.min_remaining p.T ≤ p.upper_limit
          · rw [if_pos hg, if_pos hg]
          · rw [if_neg hg, if_neg hg]
            by_cases hjs : j = p.s_to_index s
            · have hse : j + p.min_remaining p.T = s := by
                unfold Params.s_to_index at hjs
                omega
              rw [hse] at hg
              rw [hjs]
              have hthis := hca1_hit
              rw [if_neg hg] at hthis
              exact hthis
            · rw [(hca1_row j hjs).1, (hca1_row j hjs).2]
      · intro j hj
        have hj1 : (j + p.min_remaining p.T) ∉ L := fun hc => hj (List.mem_cons_of_mem _ hc)
        have hj2 : j + p.min_remaining p.T ≠ s := fun hc => hj (hc ▸ List.mem_cons_self _ _)
        obtain ⟨e1, e2⟩ := hmiss j hj1
        have hjne : j ≠ p.s_to_index s := by
          unfold Params.s_to_index at *
          omega
        obtain ⟨e3, e4⟩ := hca1_row j hjne
        exact ⟨e1.trans e3, e2.trans e4⟩

/-- A single inner-row iteration, resolved: the `q` loop computes the
pure scan against the already-solved next row, and the conditional
write stores exactly the pointwise cell (or leaves the cell alone when
every candidate was the `np.inf` sentinel). -/
theorem sStep_eq (p : Params) (hl : p.lower_limit ≤ 0) (hu : 0 ≤ p.upper_limit)
    (hb : p.bnow.length = p.T) (t : ℕ) (ht : t + 1 < p.T)
    (ca : Params.CostTab × Params.ActTab) (s : ℤ)
    (hs1 : p.min_remaining t ≤ s) (hs2 : s ≤ p.max_remaining t)
    (hnext : ∀ j : ℤ, 0 ≤ j → j < p.s_size →
      ca.1 (t + 1) j = (p.dpCk (p.T - 2 - t) (j + p.min_remaining p.T)).1) :
    ∃ ca1, p.sStep t ca s = some ca1 ∧
      (∀ t' j, t' ≠ t → ca1.1 t' j = ca.1 t' j ∧ ca1.2 t' j = ca.2 t' j) ∧
      (∀ j, j ≠ p.s_to_index s → ca1.1 t j = ca.1 t j ∧ ca1.2 t j = ca.2 t j) ∧
      ((ca1.1 t (p.s_to_index s) = ca.1 t (p.s_to_index s) ∧
          ca1.2 t (p.s_to_index s) = ca.2 t (p.s_to_index s) ∧
          p.dpCk (p.T - 1 - t) s = (none, 0)) ∨
        (ca1.1 t (p.s_to_index s) = (p.dpCk (p.T - 1 - t) s).1 ∧
          ca1.2 t (p.s_to_index s) = (p.dpCk (p.T - 1 - t) s).2)) := by
  have hqf : (sList p.lower_limit p.upper_limit).foldlM (p.qStep ca.1 t s) (none, none) =
      some (p.qScan (fun s' => (p.dpCk (p.T - 2 - t) s').1) t s) := by
    apply foldlM_eq_foldl
    intro q hq st
    rw [mem_sList] at hq
    unfold Params.qStep
    have hwin := window_step p hs1 hs2 hq.1 hq.2
    rw [resolve_idx p hl hu (by omega : t + 1 ≤ p.T) hwin.1 hwin.2,
      immStep_eq p hb (by omega) s q]
    simp only [Option.bind_eq_bind, Option.some_bind]
    have hidx := window_nested p hl hu (t := t + 1) (by omega) hwin.1 hwin.2
    have hprev := hnext (p.s_to_index (s - q)) hidx.2.1 hidx.2.2
    rw [hprev]
    have e : p.s_to_index (s - q) + p.min_remaining p.T = s - q := by
      unfold Params.s_to_index
      ring
    rw [e]
    rfl
  have hkk : p.T - 1 - t = (p.T - 2 - t) + 1 := by omega
  have hrow : p.T - 2 - (p.T - 2 - t) = t := by omega
  have hdp : p.dpCk (p.T - 1 - t) s =
      ((p.qScan (fun s' => (p.dpCk (p.T - 2 - t) s').1) t s).1,
        ((p.qScan (fun s' => (p.dpCk (p.T - 2 - t) s').1) t s).2).getD 0) := by
    rw [hkk, dpCk_succ_eq, hrow, if_pos ⟨hs1, hs2⟩]
  rcases qScan_char p (fun s' => (p.dpCk (p.T - 2 - t) s').1) t s with
    ⟨hsc, -⟩ | ⟨q0, v0, -, -, hsc, -, -, -⟩
  · refine ⟨ca, ?_, fun _ _ _ => ⟨rfl, rfl⟩, fun _ _ => ⟨rfl, rfl⟩,
      Or.inl ⟨rfl, rfl, ?_⟩⟩
    · unfold Params.sStep
      rw [hqf]
      simp only [Option.bind_eq_bind, Option.some_bind]
      rw [hsc]
      rfl
    · rw [hdp, hsc]
      rfl
  · refine ⟨(Params.writeC ca.1 t (p.s_to_index s) v0,
      Params.writeA ca.2 t (p.s_to_index s) q0), ?_, ?_, ?_, Or.inr ⟨?_, ?_⟩⟩
    · unfold Params.sStep
      rw [hqf]
      simp only [Option.bind_eq_bind, Option.some_bind]
      rw [hsc, resolve_idx p hl hu (by omega : t ≤ p.T) hs1 hs2]
      rfl
    · intro t' j ht'
      exact ⟨by simp [Params.writeC, ht'], by simp [Params.writeA, ht']⟩
    · intro j hj
      exact ⟨by simp [Params.writeC, hj], by simp [Params.writeA, hj]⟩
    · rw [hdp, hsc]
      simp [Params.writeC]
    · rw [hdp, hsc]
      simp [Params.writeA]

/-- The `s` loop of an inner row writes exactly that row of the
pointwise tables (on cells holding their defaults) and touches nothing
else. -/
theorem rowFold_char (p : Params) (hl : p.lower_limit ≤ 0) (hu : 0 ≤ p.upper_limit)
    (hb : p.bnow.length = p.T) (t : ℕ) (ht : t + 1 < p.T) :
    ∀ L : List ℤ, (∀ s ∈ L, p.min_remaining t ≤ s ∧ s ≤ p.max_remaining t) → L.Nodup →
    ∀ ca : Params.CostTab × Params.ActTab,
      (∀ j : ℤ, 0 ≤ j → j < p.s_size →
        ca.1 (t + 1) j = (p.dpCk (p.T - 2 - t) (j + p.min_remaining p.T)).1) →
      (∀ j : ℤ, (j + p.min_remaining p.T) ∈ L → ca.1 t j = none ∧ ca.2 t j = 0) →
      ∃ ca', L.foldlM (p.sStep t) ca = some ca' ∧
        (∀ t' j, t' ≠ t → ca'.1 t' j = ca.1 t' j ∧ ca'.2 t' j = ca.2 t' j) ∧
        (∀ j : ℤ, (j + p.min_remaining p.T) ∈ L →
          ca'.1 t j = (p.dpCk (p.T - 1 - t) (j + p.min_remaining p.T)).1 ∧
          ca'.2 t j = (p.dpCk (p.T - 1 - t) (j + p.min_remaining p.T)).2) ∧
        (∀ j : ℤ, (j + p.min_remaining p.T) ∉ L →
          ca'.1 t j = ca.1 t j ∧ ca'.2 t j = ca.2 t j) := by
  intro L
  induction L with
  | nil =>
      intro _ _ ca _ _
      exact ⟨ca, rfl, fun _ _ _ => ⟨rfl, rfl⟩, fun j hj => absurd hj (List.not_mem_nil _),
        fun _ _ => ⟨rfl, rfl⟩⟩
  | cons s L ihL =>
      intro hwinL hnd ca hnext hdef
      have hs := hwinL s (List.mem_cons_self _ _)
      obtain ⟨ca1, hstep, hother1, hrow1, hhit1⟩ :=
        sStep_eq p hl hu hb t ht ca s hs.1 hs.2 hnext
      have hsnotL : s ∉ L := (List.nodup_cons.mp hnd).1
      have hdefs := hdef (p.s_to_index s) (by
        have e : p.s_to_index s + p.min_remaining p.T = s := by
          unfold Params.s_to_index
          ring
        rw [e]
        exact List.mem_cons_self _ _)
      have hcell1 : ca1.1 t (p.s_to_index s) = (p.dpCk (p.T - 1 - t) s).1 ∧
          ca1.2 t (p.s_to_index s) = (p.dpCk (p.T - 1 - t) s).2 := by
        rcases hhit1 with ⟨e1, e2, hz⟩ | ⟨e1, e2⟩
        · rw [hz, e1, e2, hdefs.1, hdefs.2]
          exact ⟨rfl, rfl⟩
        · exact ⟨e1, e2⟩
      obtain ⟨ca', hfold, hother, hhit, hmiss⟩ :=
        ihL (fun x hx => hwinL x (List.mem_cons_of_mem _ hx)) (List.nodup_cons.mp hnd).2 ca1
          (fun j h1 h2 => ((hother1 (t + 1) j (by omega)).1).trans (hnext j h1 h2))
          (fun j hjm => by
            have hne : j ≠ p.s_to_index s := by
              intro hcon
              apply hsnotL
              have e : j + p.min_remaining p.T = s := by
                unfold Params.s_to_index at hcon
                omega
              rwa [e] at hjm
            obtain ⟨e1, e2⟩ := hrow1 j hne
            obtain ⟨d1, d2⟩ := hdef j (List.mem_cons_of_mem _ hjm)
            exact ⟨e1.trans d1, e2.trans d2⟩)
      refine ⟨ca', ?_, ?_, ?_, ?_⟩
      · rw [foldlM_cons_opt, hstep, Option.some_bind]
        exact hfold
      · intro t' j ht'
        exact ⟨((hother t' j ht').1).trans (hother1 t' j ht').1,
          ((hother t' j ht').2).trans (hother1 t' j ht').2⟩
      · intro j hj
        rcases List.mem_cons.mp hj with hcase | hcase
        · have hjidx : j = p.s_to_index s := by
            unfold Params.s_to_index
            omega
          have hnotL : (j + p.min_remaining p.T) ∉ L := by
            rw [hcase]
            exact hsnotL
          obtain ⟨e1, e2⟩ := hmiss j hnotL
          rw [e1, e2, hcase, hjidx]
          exact hcell1
        · exact hhit j hcase
      · intro j hj
        have hj1 : (j + p.min_remaining p.T) ∉ L := fun hc => hj (List.mem_cons_of_mem _ hc)
        have hj2 : j ≠ p.s_to_index s := by
          intro hcon
          apply hj
          have e : j + p.min_remaining p.T = s := by
            unfold Params.s_to_index at hcon
            omega
          rw [e]
          exact List.mem_cons_self _ _
        obtain ⟨e1, e2⟩ := hmiss j hj1
        obtain ⟨e3, e4⟩ := hrow1 j hj2
        exact ⟨e1.trans e3, e2.trans e4⟩

/-- The backward loop over rows `m-1, …, 0` completes every row of the
pointwise tables, given already-correct rows above `m` and untouched
rows below. -/
theorem backFold_char (p : Params) (hl : p.lower_limit ≤ 0) (hu : 0 ≤ p.upper_limit)
    (hb : p.bnow.length = p.T) :
    ∀ m : ℕ, m ≤ p.T - 1 → ∀ ca : Params.CostTab × Params.ActTab,
      (∀ t j, m ≤ t → t < p.T → 0 ≤ j → j < p.s_size →
        ca.1 t j = (p.dpCk (p.T - 1 - t) (j + p.min_remaining p.T)).1 ∧
        ca.2 t j = (p.dpCk (p.T - 1 - t) (j + p.min_remaining p.T)).2) →
      (∀ t j, t < m → ca.1 t j = none ∧ ca.2 t j = 0) →
      ∃ ca', ((List.range m).reverse).foldlM p.rowStep ca = some ca' ∧
        ∀ t j, t < p.T → 0 ≤ j → j < p.s_size →
          ca'.1 t j = (p.dpCk (p.T - 1 - t) (j + p.min_remaining p.T)).1 ∧
          ca'.2 t j = (p.dpCk (p.T - 1 - t) (j + p.min_remaining p.T)).2 := by
  intro m
  induction m with
  | zero =>
      intro _ ca hdone _
      exact ⟨ca, rfl, fun t j h1 h2 h3 => hdone t j (Nat.zero_le t) h1 h2 h3⟩
  | succ m ihm =>
      intro hm ca hdone hdef
      have hrev : (List.range (m + 1)).reverse = m :: (List.range m).reverse := by
        rw [List.range_succ, List.reverse_append]
        rfl
      have hwinmem : ∀ s ∈ sList (p.min_remaining m) (p.max_remaining m),
          p.min_remaining m ≤ s ∧ s ≤ p.max_remaining m := fun s hs => mem_sList.mp hs
      obtain ⟨ca1, hfold1, hother1, hhit1, hmiss1⟩ :=
        rowFold_char p hl hu hb m (by omega)
          (sList (p.min_remaining m) (p.max_remaining m)) hwinmem
          (sList_nodup _ _) ca
          (fun j h1 h2 => by
            have e : p.T - 1 - (m + 1) = p.T - 2 - m := by omega
            rw [← e]
            exact (hdone (m + 1) j (by omega) (by omega) h1 h2).1)
          (fun j _ => hdef m j (Nat.lt_succ_self m))
      have hrow_m : ∀ j : ℤ, 0 ≤ j → j < p.s_size →
          ca1.1 m j = (p.dpCk (p.T - 1 - m) (j + p.min_remaining p.T)).1 ∧
          ca1.2 m j = (p.dpCk (p.T - 1 - m) (j + p.min_remaining p.T)).2 := by
        intro j h1 h2
        by_cases hmem : (j + p.min_remaining p.T) ∈
            sList (p.min_remaining m) (p.max_remaining m)
        · exact hhit1 j hmem
        · obtain ⟨e1, e2⟩ := hmiss1 j hmem
          obtain ⟨d1, d2⟩ := hdef m j (Nat.lt_succ_self m)
          rw [mem_sList] at hmem
          have hnw : ¬(p.min_remaining m ≤ j + p.min_remaining p.T ∧
              j + p.min_remaining p.T ≤ p.max_remaining m) := hmem
          have hkk : p.T - 1 - m = (p.T - 2 - m) + 1 := by omega
          have hrw : p.T - 2 - (p.T - 2 - m) = m := by omega
          have hz : p.dpCk (p.T - 1 - m) (j + p.min_remaining p.T) = (none, 0) := by
            rw [hkk, dpCk_succ_eq, hrw, if_neg hnw]
          rw [hz, e1, e2, d1, d2]
          exact ⟨rfl, rfl⟩
      obtain ⟨ca', hfold, hmatch⟩ := ihm (by omega) ca1
        (fun t j h1 h2 h3 h4 => by
          rcases Nat.eq_or_lt_of_le h1 with hcase | hcase
          · rw [← hcase]
            exact hrow_m j h3 h4
          · obtain ⟨e1, e2⟩ := hother1 t j (by omega)
            obtain ⟨d1, d2⟩ := hdone t j (by omega) h2 h3 h4
            exact ⟨e1.trans d1, e2.trans d2⟩)
        (fun t j h1 => by
          obtain ⟨e1, e2⟩ := hother1 t j (by omega)
          obtain ⟨d1, d2⟩ := hdef t j (by omega)
          exact ⟨e1.trans d1, e2.trans d2⟩)
      refine ⟨ca', ?_, hmatch⟩
      rw [hrev, foldlM_cons_opt]
      have hrs : p.rowStep ca m = some ca1 := hfold1
      rw [hrs, Option.some_bind]
      exact hfold

/-- After `populate`, every cell of the physical tables agrees with the
pointwise tables. -/
theorem populate_spec (p : Params) (hl : p.lower_limit ≤ 0) (hu : 0 ≤ p.upper_limit)
    (hT : 1 ≤ p.T) (hb : p.bnow.length = p.T) :
    ∃ ca, p.populate = some ca ∧
      ∀ t j, t < p.T → 0 ≤ j → j < p.s_size →
        ca.1 t j = (p.dpCk (p.T - 1 - t) (j + p.min_remaining p.T)).1 ∧
        ca.2 t j = (p.dpCk (p.T - 1 - t) (j + p.min_remaining p.T)).2 := by
  obtain ⟨ca1, hfold1, hother1, hhit1, hmiss1⟩ :=
    baseFold_char p hl hu hT hb (sList (p.min_remaining p.T) (p.max_remaining p.T))
      (fun s hs => mem_sList.mp hs)
      ((fun _ _ => none, fun _ _ => 0) : Params.CostTab × Params.ActTab)
  have hsize : ∀ j : ℤ, 0 ≤ j → j < p.s_size →
      p.min_remaining p.T ≤ j + p.min_remaining p.T ∧
        j + p.min_remaining p.T ≤ p.max_remaining p.T := by
    intro j h1 h2
    unfold Params.s_size at h2
    omega
  have hbase : ∀ t j, p.T - 1 ≤ t → t < p.T → 0 ≤ j → j < p.s_size →
      ca1.1 t j = (p.dpCk (p.T - 1 - t) (j + p.min_remaining p.T)).1 ∧
      ca1.2 t j = (p.dpCk (p.T - 1 - t) (j + p.min_remaining p.T)).2 := by
    intro t j h1 h2 h3 h4
    have ht : t = p.T - 1 := by omega
    subst ht
    have hzero : p.T - 1 - (p.T - 1) = 0 := by omega
    rw [hzero, dpCk_zero_eq]
    have hw := hsize j h3 h4
    have hmem : (j + p.min_remaining p.T) ∈
        sList (p.min_remaining p.T) (p.max_remaining p.T) := mem_sList.mpr hw
    have hpair := hhit1 j hmem
    by_cases hg : p.lower_limit ≤ j + p.min_remaining p.T ∧
        j + p.min_remaining p.T ≤ p.upper_limit
    · rw [if_pos hg] at hpair
      rw [if_pos ⟨hw, hg⟩]
      exact ⟨congrArg Prod.fst hpair, congrArg Prod.snd hpair⟩
    · rw [if_neg hg] at hpair
      rw [if_neg (fun hcon => hg hcon.2)]
      exact ⟨congrArg Prod.fst hpair, congrArg Prod.snd hpair⟩
  have hdef1 : ∀ t j, t < p.T - 1 → ca1.1 t j = none ∧ ca1.2 t j = 0 := by
    intro t j h1
    exact hother1 t j (by omega)
  obtain ⟨ca', hfold, hmatch⟩ := backFold_char p hl hu hb (p.T - 1) (le_refl _) ca1
    (fun t j h1 h2 h3 h4 => hbase t j h1 h2 h3 h4)
    (fun t j h1 => hdef1 t j h1)
  refine ⟨ca', ?_, hmatch⟩
  simp only [Params.populate]
  rw [hfold1]
  simp only [Option.bind_eq_bind, Option.some_bind]
  exact hfold

/-! ## The reconstruction pass -/

theorem dpA_bounds (p : Params) (hl : p.lower_limit ≤ 0) (hu : 0 ≤ p.upper_limit)
    (hT : 1 ≤ p.T) {t : ℕ} (ht : t < p.T) {s : ℤ}
    (hs1 : p.min_remaining t ≤ s) (hs2 : s ≤ p.max_remaining t) :
    p.lower_limit ≤ p.dpA t s ∧ p.dpA t s ≤ p.upper_limit := by
  have hrow : p.T - 1 - (p.T - 1 - t) = t := by omega
  have hspec := dpCk_spec p hl hu hT (p.T - 1 - t) (by omega) s
    (by rw [hrow]; exact hs1) (by rw [hrow]; exact hs2)
  by_cases hc : p.lower_limit * (((p.T - 1 - t : ℕ) : ℤ) + 1) ≤ s ∧
      s ≤ p.upper_limit * (((p.T - 1 - t : ℕ) : ℤ) + 1)
  · exact (hspec.2 hc).1
  · have hz := hspec.1.2 hc
    unfold Params.dpA
    rw [hz]
    exact ⟨hl, hu⟩

theorem reconStep_eq (p : Params) (hl : p.lower_limit ≤ 0) (hu : 0 ≤ p.upper_limit)
    (A : Params.ActTab) (t : ℕ) (ht : t ≤ p.T) (acc : List ℤ) (s : ℤ)
    (hs1 : p.min_remaining t ≤ s) (hs2 : s ≤ p.max_remaining t) :
    p.reconStep A (acc, s) t =
      some (acc ++ [A t (p.s_to_index s)], s - A t (p.s_to_index s)) := by
  unfold Params.reconStep
  rw [resolve_idx p hl hu ht hs1 hs2]
  simp only [Option.bind_eq_bind, Option.some_bind]
  rfl

theorem reconPath_length (p : Params) : ∀ n t s, (p.reconPath t n s).length = n := by
  intro n
  induction n with
  | zero => intro t s; rfl
  | succ n ihn => intro t s; simp [Params.reconPath, ihn]

/-- The physical reconstruction loop follows the pointwise action table
exactly, as long as the running volume stays inside the windows. -/
theorem reconFold_eq (p : Params) (hl : p.lower_limit ≤ 0) (hu : 0 ≤ p.upper_limit)
    (hT : 1 ≤ p.T) (A : Params.ActTab)
    (hA : ∀ t j, t < p.T → 0 ≤ j → j < p.s_size →
      A t j = (p.dpCk (p.T - 1 - t) (j + p.min_remaining p.T)).2) :
    ∀ n t₀ (acc : List ℤ) (s : ℤ), t₀ + n = p.T →
      p.min_remaining t₀ ≤ s → s ≤ p.max_remaining t₀ →
      (List.range' t₀ n).foldlM (p.reconStep A) (acc, s) =
        some (acc ++ p.reconPath t₀ n s, s - (p.reconPath t₀ n s).sum) := by
  intro n
  induction n with
  | zero =>
      intro t₀ acc s _ _ _
      simp [Params.reconPath]
  | succ n ihn =>
      intro t₀ acc s ht hs1 hs2
      have hidx := window_nested p hl hu (t := t₀) (by omega) hs1 hs2
      have hav : A t₀ (p.s_to_index s) = p.dpA t₀ s := by
        have h := hA t₀ (p.s_to_index s) (by omega) hidx.2.1 hidx.2.2
        have e : p.s_to_index s + p.min_remaining p.T = s := by
          unfold Params.s_to_index
          ring
        rw [e] at h
        exact h
      rw [List.range'_succ, foldlM_cons_opt,
        reconStep_eq p hl hu A t₀ (by omega) acc s hs1 hs2, hav, Option.some_bind]
      have hbnd := dpA_bounds p hl hu hT (t := t₀) (by omega) hs1 hs2
      have hwin := window_step p hs1 hs2 hbnd.1 hbnd.2
      rw [ihn (t₀ + 1) (acc ++ [p.dpA t₀ s]) (s - p.dpA t₀ s) (by omega) hwin.1 hwin.2]
      simp [Params.reconPath, List.sum_cons, List.append_assoc, sub_sub]

/-- A successful run returns exactly the pointwise reconstruction
starting from `(0, V)`. -/
theorem run_spec (p : Params) (hl : p.lower_limit ≤ 0) (hu : 0 ≤ p.upper_limit)
    (hT : 1 ≤ p.T) (hb : p.bnow.length = p.T) :
    p.run = some (p.reconPath 0 p.T p.V) := by
  obtain ⟨ca, hpop, hmatch⟩ := populate_spec p hl hu hT hb
  unfold Params.run
  rw [hpop]
  simp only [Option.bind_eq_bind, Option.some_bind]
  have h0 : p.min_remaining 0 ≤ p.V ∧ p.V ≤ p.max_remaining 0 := by
    unfold Params.min_remaining Params.max_remaining
    norm_num
  have hfold := reconFold_eq p hl hu hT ca.2
    (fun t j h1 h2 h3 => (hmatch t j h1 h2 h3).2)
    p.T 0 [] p.V (by omega) h0.1 h0.2
  rw [List.range_eq_range', hfold]
  simp

/-- Feasibility of the reconstruction: entries within bounds and the
whole volume traded, under completability. -/
theorem reconPath_feas (p : Params) (hl : p.lower_limit ≤ 0) (hu : 0 ≤ p.upper_limit)
    (hT : 1 ≤ p.T) :
    ∀ n t₀ (s : ℤ), t₀ + n = p.T →
      p.min_remaining t₀ ≤ s → s ≤ p.max_remaining t₀ →
      (p.lower_limit * (n : ℤ) ≤ s ∧ s ≤ p.upper_limit * (n : ℤ)) →
      (∀ x ∈ p.reconPath t₀ n s, p.lower_limit ≤ x ∧ x ≤ p.upper_limit) ∧
      (p.reconPath t₀ n s).sum = s := by
  intro n
  induction n with
  | zero =>
      intro t₀ s _ _ _ hc
      refine ⟨fun x hx => absurd hx (List.not_mem_nil x), ?_⟩
      have hs0 : s = 0 := by
        have e1 : p.lower_limit * ((0 : ℕ) : ℤ) = 0 := by norm_num
        have e2 : p.upper_limit * ((0 : ℕ) : ℤ) = 0 := by norm_num
        rw [e1] at hc
        rw [e2] at hc
        omega
      rw [hs0]
      rfl
  | succ n ihn =>
      intro t₀ s ht hs1 hs2 hc
      have hrow : p.T - 1 - n = t₀ := by omega
      have hcmp : p.lower_limit * ((n : ℤ) + 1) ≤ s ∧ s ≤ p.upper_limit * ((n : ℤ) + 1) := by
        push_cast at hc
        exact hc
      have hspec := dpCk_spec p hl hu hT n (by omega) s
        (by rw [hrow]; exact hs1) (by rw [hrow]; exact hs2)
      obtain ⟨hbnd, hzero, hsuccs⟩ := hspec.2 hcmp
      have hact : p.dpA t₀ s = (p.dpCk n s).2 := by
        unfold Params.dpA
        rw [show p.T - 1 - t₀ = n by omega]
      have hpath : p.reconPath t₀ (n + 1) s =
          p.dpA t₀ s :: p.reconPath (t₀ + 1) n (s - p.dpA t₀ s) := rfl
      cases n with
      | zero =>
          have hs' := hzero rfl
          rw [hact] at hpath
          rw [hs'] at hpath
          rw [hpath]
          have hlu : p.lower_limit ≤ s ∧ s ≤ p.upper_limit := by
            have e1 : p.lower_limit * ((0 : ℤ) + 1) = p.lower_limit := by ring
            have e2 : p.upper_limit * ((0 : ℤ) + 1) = p.upper_limit := by ring
            simp only [Nat.cast_zero] at hcmp
            rw [e1, e2] at hcmp
            exact hcmp
          constructor
          · intro x hx
            have hx' : x = s ∨ x ∈ p.reconPath (t₀ + 1) 0 (s - s) := List.mem_cons.mp hx
            rcases hx' with hx' | hx'
            · rw [hx']; exact hlu
            · exact absurd hx' (List.not_mem_nil x)
          · show s + (p.reconPath (t₀ + 1) 0 (s - s)).sum = s
            show s + ([] : List ℤ).sum = s
            simp
      | succ m =>
          obtain ⟨hnextc, -⟩ := hsuccs m rfl
          rw [← hact] at hnextc hbnd
          have hwin := window_step p hs1 hs2 hbnd.1 hbnd.2
          obtain ⟨hbn, hsum⟩ := ihn (t₀ + 1) (s - p.dpA t₀ s) (by omega) hwin.1 hwin.2
            (by push_cast; push_cast at hnextc; exact hnextc)
          rw [hpath]
          constructor
          · intro x hx
            rcases List.mem_cons.mp hx with hx' | hx'
            · rw [hx']; exact hbnd
            · exact hbn x hx'
          · rw [List.sum_cons, hsum]
            ring

/-- The value recursion along the reconstruction: for a horizon of at
least two steps, the table value at the current state is exactly the
suffix cost of the reconstructed path. -/
theorem reconPath_cost (p : Params) (hl : p.lower_limit ≤ 0) (hu : 0 ≤ p.upper_limit)
    (hT2 : 2 ≤ p.T) :
    ∀ n t₀ (s : ℤ), t₀ + (n + 1) = p.T →
      p.min_remaining t₀ ≤ s → s ≤ p.max_remaining t₀ →
      (p.lower_limit * ((n : ℤ) + 1) ≤ s ∧ s ≤ p.upper_limit * ((n : ℤ) + 1)) →
      (p.dpCk n s).1 = some (p.suffCost t₀ s (p.reconPath t₀ (n + 1) s)) := by
  intro n
  induction n with
  | zero =>
      intro t₀ s ht hs1 hs2 hcmp
      have ht₀ : t₀ = p.T - 1 := by omega
      have hw := window_nested p hl hu (t := t₀) (by omega) hs1 hs2
      have hlu : p.lower_limit ≤ s ∧ s ≤ p.upper_limit := by
        have e1 : p.lower_limit * ((0 : ℤ) + 1) = p.lower_limit := by ring
        have e2 : p.upper_limit * ((0 : ℤ) + 1) = p.upper_limit := by ring
        simp only [Nat.cast_zero] at hcmp
        rw [e1, e2] at hcmp
        exact hcmp
      have hval : p.dpCk 0 s = (some (p.baseCost s), s) := by
        rw [dpCk_zero_eq, if_pos ⟨hw.1, hlu⟩]
      have hact : p.dpA t₀ s = s := by
        unfold Params.dpA
        rw [show p.T - 1 - t₀ = 0 by omega, hval]
      have hpath : p.reconPath t₀ 1 s = [s] := by
        show p.dpA t₀ s :: p.reconPath (t₀ + 1) 0 (s - p.dpA t₀ s) = [s]
        rw [hact]
        rfl
      rw [hval, hpath]
      have hbc : p.baseCost s = p.immCost (p.T - 1) s s := by
        unfold Params.baseCost Params.immCost Params.bT2
        rw [if_neg (by omega : ¬ p.T = 1), if_neg (by omega : ¬ p.T - 1 = 0)]
      show some (p.baseCost s) =
        some (p.immCost t₀ s s + p.suffCost (t₀ + 1) (s - s) [])
      rw [ht₀]
      simp only [Params.suffCost, add_zero]
      rw [hbc]
  | succ m ihm =>
      intro t₀ s ht hs1 hs2 hcmp
      have hrow : p.T - 1 - (m + 1) = t₀ := by omega
      have hspec := dpCk_spec p hl hu (by omega) (m + 1) (by omega) s
        (by rw [hrow]; exact hs1) (by rw [hrow]; exact hs2)
      have hcmp' : p.lower_limit * (((m + 1 : ℕ) : ℤ) + 1) ≤ s ∧
          s ≤ p.upper_limit * (((m + 1 : ℕ) : ℤ) + 1) := by
        push_cast
        push_cast at hcmp
        exact hcmp
      obtain ⟨hbnd, -, hsuccs⟩ := hspec.2 hcmp'
      obtain ⟨hnextc, hvaleq⟩ := hsuccs m rfl
      have hact : p.dpA t₀ s = (p.dpCk (m + 1) s).2 := by
        unfold Params.dpA
        rw [show p.T - 1 - t₀ = m + 1 by omega]
      rw [← hact] at hnextc hvaleq hbnd
      have hwin := window_step p hs1 hs2 hbnd.1 hbnd.2
      have hih := ihm (t₀ + 1) (s - p.dpA t₀ s) (by omega) hwin.1 hwin.2
        (by push_cast; push_cast at hnextc; exact hnextc)
      rw [hvaleq, hih]
      have hpath : p.reconPath t₀ (m + 1 + 1) s =
          p.dpA t₀ s :: p.reconPath (t₀ + 1) (m + 1) (s - p.dpA t₀ s) := rfl
      rw [hpath]
      show some (p.suffCost (t₀ + 1) (s - p.dpA t₀ s)
          (p.reconPath (t₀ + 1) (m + 1) (s - p.dpA t₀ s)) +
          p.immCost (p.T - 1 - (m + 1)) s (p.dpA t₀ s)) =
        some (p.immCost t₀ s (p.dpA t₀ s) + p.suffCost (t₀ + 1) (s - p.dpA t₀ s)
          (p.reconPath (t₀ + 1) (m + 1) (s - p.dpA t₀ s)))
      rw [hrow]
      rw [add_comm]

/-! ## Suffix cost versus the cost functional -/

theorem cast_sum_list : ∀ l : List ℤ, ((l.sum : ℤ) : ℚ) = (l.map fun z : ℤ => (z : ℚ)).sum := by
  intro l
  induction l with
  | nil => simp
  | cons x xs ih =>
      rw [List.sum_cons, List.map_cons, List.sum_cons, ← ih]
      push_cast
      ring

theorem suffCost_sum (p : Params) :
    ∀ qs : List ℤ, ∀ t₀ : ℕ, ∀ s : ℤ,
      p.suffCost t₀ s qs = ∑ j ∈ Finset.range qs.length,
        p.immCost (t₀ + j) (s - ((qs.take j).sum)) (qs.getD j 0) := by
  intro qs
  induction qs with
  | nil => intro t₀ s; simp [Params.suffCost]
  | cons q rest ih =>
      intro t₀ s
      have hrec : p.suffCost t₀ s (q :: rest) =
          p.immCost t₀ s q + p.suffCost (t₀ + 1) (s - q) rest := rfl
      rw [hrec, ih (t₀ + 1) (s - q),
        show (q :: rest).length = rest.length + 1 from rfl, Finset.sum_range_succ']
      simp only [List.take_zero, List.sum_nil, sub_zero, List.getD_cons_zero, Nat.add_zero]
      rw [add_comm]
      congr 1
      refine Finset.sum_congr rfl fun j hj => ?_
      have e1 : t₀ + (j + 1) = t₀ + 1 + j := by omega
      have e2 : ((q :: rest).take (j + 1)).sum = q + (rest.take j).sum := by
        simp [List.take_succ_cons]
      have e3 : (q :: rest).getD (j + 1) 0 = rest.getD j 0 := rfl
      rw [e1, e2, e3]
      congr 1
      ring

theorem costFormula_eq_suffCost (p : Params) (hb : p.bnow.length = p.T) (qs : List ℤ)
    (hlen : qs.length = p.T) :
    costFormula (qs.map fun z : ℤ => (z : ℚ)) p.bnow p.kappa = p.suffCost 0 p.V qs := by
  rw [suffCost_sum]
  unfold costFormula
  rw [List.length_map]
  refine Finset.sum_congr rfl fun j hj => ?_
  rw [Finset.mem_range] at hj
  have hget : (qs.map fun z : ℤ => (z : ℚ)).getD j 0 = ((qs.getD j 0 : ℤ) : ℚ) := by
    rw [List.getD_eq_getElem?_getD, List.getElem?_map,
      List.getElem?_eq_getElem hj, List.getD_eq_getElem?_getD,
      List.getElem?_eq_getElem hj]
    rfl
  have htake : ((qs.map fun z : ℤ => (z : ℚ)).take j).sum = (((qs.take j).sum : ℤ) : ℚ) := by
    rw [← List.map_take, ← cast_sum_list]
  have hz : (0 : ℕ) + j = j := by omega
  rw [hz, hget, htake]
  unfold Params.immCost Params.bAt Params.Bcum
  by_cases hj0 : j = 0
  · subst hj0
    rw [if_pos rfl]
    simp only [List.take_zero, List.sum_nil]
    push_cast
    ring
  · rw [if_neg hj0]
    push_cast
    ring

theorem total_cost_suffCost (p : Params) (hb : p.bnow.length = p.T) (qs : List ℤ)
    (hlen : qs.length = p.T) :
    total_cost (qs.map fun z : ℤ => (z : ℚ)) p.bnow p.kappa = some (p.suffCost 0 p.V qs) := by
  rw [total_cost_eq _ _ _ (by rw [List.length_map, hlen, hb]),
    costFormula_eq_suffCost p hb qs hlen]

/-! ## Observation lemmas for the populated tables -/

theorem min_remaining_zero (p : Params) : p.min_remaining 0 = p.V := by
  unfold Params.min_remaining
  norm_num

theorem max_remaining_zero (p : Params) : p.max_remaining 0 = p.V := by
  unfold Params.max_remaining
  norm_num

theorem eq_singleton_of_length_sum {V : ℤ} (l : List ℤ) (h1 : l.length = 1)
    (h2 : l.sum = V) : l = [V] := by
  match l, h1 with
  | [x], _ =>
      rw [List.sum_cons, List.sum_nil, add_zero] at h2
      rw [h2]

theorem costAt_eq (p : Params) (hl : p.lower_limit ≤ 0) (hu : 0 ≤ p.upper_limit)
    (hT : 1 ≤ p.T) (hb : p.bnow.length = p.T) {t : ℕ} (ht : t < p.T) {s : ℤ}
    (hs1 : p.min_remaining t ≤ s) (hs2 : s ≤ p.max_remaining t) :
    p.costAt t s = some ((p.dpCk (p.T - 1 - t) s).1) ∧
    p.actAt t s = some ((p.dpCk (p.T - 1 - t) s).2) := by
  obtain ⟨ca, hpop, hmatch⟩ := populate_spec p hl hu hT hb
  have hidx := window_nested p hl hu (le_of_lt ht) hs1 hs2
  have h := hmatch t (p.s_to_index s) ht hidx.2.1 hidx.2.2
  have e : p.s_to_index s + p.min_remaining p.T = s := by
    unfold Params.s_to_index
    ring
  rw [e] at h
  unfold Params.costAt Params.actAt
  rw [hpop]
  simp only [Option.map_some']
  exact ⟨by rw [h.1], by rw [h.2]⟩

theorem candAt_eq (p : Params) (hl : p.lower_limit ≤ 0) (hu : 0 ≤ p.upper_limit)
    (hT : 1 ≤ p.T) (hb : p.bnow.length = p.T) {t : ℕ} (ht : t + 1 < p.T) {s q : ℤ}
    (hs1 : p.min_remaining t ≤ s) (hs2 : s ≤ p.max_remaining t)
    (hq1 : p.lower_limit ≤ q) (hq2 : q ≤ p.upper_limit) :
    p.candAt t s q = some (p.cand (fun s' => (p.dpCk (p.T - 2 - t) s').1) t s q) := by
  obtain ⟨ca, hpop, hmatch⟩ := populate_spec p hl hu hT hb
  have hwin := window_step p hs1 hs2 hq1 hq2
  have hidx := window_nested p hl hu (t := t + 1) (by omega) hwin.1 hwin.2
  have h := (hmatch (t + 1) (p.s_to_index (s - q)) (by omega) hidx.2.1 hidx.2.2).1
  have e : p.s_to_index (s - q) + p.min_remaining p.T = s - q := by
    unfold Params.s_to_index
    ring
  rw [e] at h
  have erow : p.T - 1 - (t + 1) = p.T - 2 - t := by omega
  rw [erow] at h
  unfold Params.candAt
  rw [hpop]
  simp only [Option.map_some']
  rw [h]
  simp only [Params.cand]

/-! ## Claims C10, C3, C4, C9, C1 -/

/-- C10: for every horizon `T ≥ 1`, every opponent trajectory of length
`T`, every `kappa`, every integer `V`, and bounds with
`lower_limit ≤ 0 ≤ upper_limit`, `best_respond` terminates normally and
returns a trajectory of length exactly `T`, even when `V` lies outside
`[T*lower_limit, T*upper_limit]` — no exception is raised; unreached
sentinel-cost states keep the zero-initialized default action. -/
theorem claim_C10 (p : Params) (hT : 1 ≤ p.T) (hb : p.bnow.length = p.T)
    (hl : p.lower_limit ≤ 0) (hu : 0 ≤ p.upper_limit) :
    ∃ a, best_respond p.V p.bnow p.T p.kappa p.lower_limit p.upper_limit = some a ∧
      a.length = p.T :=
  ⟨p.reconPath 0 p.T p.V, run_spec p hl hu hT hb, reconPath_length p p.T 0 p.V⟩

/-- Witness for C10 at the infeasible instance `V = 5`, `T = 2`,
bounds `[0, 1]`. -/
theorem claim_C10_witness :
    ∃ a, best_respond 5 [0, 0] 2 0 0 1 = some a ∧ a.length = 2 :=
  claim_C10 ⟨5, [0, 0], 2, 0, 0, 1⟩ (by decide) rfl (by decide) (by decide)

/-- C3 (amended): provided additionally `lower_limit ≤ 0 ≤ upper_limit`,
for every feasible instance the returned trajectory has length `T` and
sums exactly to `V`. -/
theorem claim_C3 (p : Params) (hT : 1 ≤ p.T) (hb : p.bnow.length = p.T)
    (hl : p.lower_limit ≤ 0) (hu : 0 ≤ p.upper_limit)
    (hf1 : (p.T : ℤ) * p.lower_limit ≤ p.V) (hf2 : p.V ≤ (p.T : ℤ) * p.upper_limit) :
    ∃ a, best_respond p.V p.bnow p.T p.kappa p.lower_limit p.upper_limit = some a ∧
      a.length = p.T ∧ a.sum = p.V := by
  have hcmp : p.lower_limit * (p.T : ℤ) ≤ p.V ∧ p.V ≤ p.upper_limit * (p.T : ℤ) :=
    ⟨by linarith [mul_comm (p.T : ℤ) p.lower_limit],
      by linarith [mul_comm (p.T : ℤ) p.upper_limit]⟩
  obtain ⟨-, hsum⟩ := reconPath_feas p hl hu hT p.T 0 p.V (by omega)
    (le_of_eq (min_remaining_zero p)) (le_of_eq (max_remaining_zero p).symm) hcmp
  exact ⟨p.reconPath 0 p.T p.V, run_spec p hl hu hT hb,
    reconPath_length p p.T 0 p.V, hsum⟩

/-- Witness for the amended C3 at `V = 4`, `bnow = [1,1]`, `T = 2`,
`kappa = 1/2`, bounds `[0, 4]`. -/
theorem claim_C3_witness :
    ∃ a, best_respond 4 [1, 1] 2 (1/2) 0 4 = some a ∧ a.length = 2 ∧ a.sum = 4 :=
  claim_C3 ⟨4, [1, 1], 2, 1/2, 0, 4⟩ (by decide) rfl (by decide) (by decide)
    (by decide) (by decide)

/-- C4 (amended): provided additionally `lower_limit ≤ 0 ≤ upper_limit`,
every entry of the returned trajectory lies in
`[lower_limit, upper_limit]`. -/
theorem claim_C4 (p : Params) (hT : 1 ≤ p.T) (hb : p.bnow.length = p.T)
    (hl : p.lower_limit ≤ 0) (hu : 0 ≤ p.upper_limit)
    (hf1 : (p.T : ℤ) * p.lower_limit ≤ p.V) (hf2 : p.V ≤ (p.T : ℤ) * p.upper_limit) :
    ∃ a, best_respond p.V p.bnow p.T p.kappa p.lower_limit p.upper_limit = some a ∧
      a.length = p.T ∧ ∀ x ∈ a, p.lower_limit ≤ x ∧ x ≤ p.upper_limit := by
  have hcmp : p.lower_limit * (p.T : ℤ) ≤ p.V ∧ p.V ≤ p.upper_limit * (p.T : ℤ) :=
    ⟨by linarith [mul_comm (p.T : ℤ) p.lower_limit],
      by linarith [mul_comm (p.T : ℤ) p.upper_limit]⟩
  obtain ⟨hbnd, -⟩ := reconPath_feas p hl hu hT p.T 0 p.V (by omega)
    (le_of_eq (min_remaining_zero p)) (le_of_eq (max_remaining_zero p).symm) hcmp
  exact ⟨p.reconPath 0 p.T p.V, run_spec p hl hu hT hb,
    reconPath_length p p.T 0 p.V, hbnd⟩

/-- Witness for the amended C4 at the same feasible instance. -/
theorem claim_C4_witness :
    ∃ a, best_respond 4 [1, 1] 2 (1/2) 0 4 = some a ∧ a.length = 2 ∧
      ∀ x ∈ a, (0:ℤ) ≤ x ∧ x ≤ 4 :=
  claim_C4 ⟨4, [1, 1], 2, 1/2, 0, 4⟩ (by decide) rfl (by decide) (by decide)
    (by decide) (by decide)

/-- C9 (amended): provided additionally `lower_limit ≤ 0 ≤ upper_limit`,
a horizon of `T = 1` with `lower_limit ≤ V ≤ upper_limit` forces the
returned trajectory to be `[V]`. -/
theorem claim_C9 (p : Params) (hT1 : p.T = 1) (hb : p.bnow.length = p.T)
    (hl : p.lower_limit ≤ 0) (hu : 0 ≤ p.upper_limit)
    (hf1 : p.lower_limit ≤ p.V) (hf2 : p.V ≤ p.upper_limit) :
    best_respond p.V p.bnow p.T p.kappa p.lower_limit p.upper_limit = some [p.V] := by
  have hrun := run_spec p hl hu (by omega) hb
  have hcmp : p.lower_limit * (p.T : ℤ) ≤ p.V ∧ p.V ≤ p.upper_limit * (p.T : ℤ) := by
    rw [hT1]
    push_cast
    constructor <;> linarith
  obtain ⟨-, hsum⟩ := reconPath_feas p hl hu (by omega) p.T 0 p.V (by omega)
    (le_of_eq (min_remaining_zero p)) (le_of_eq (max_remaining_zero p).symm) hcmp
  have hlen := reconPath_length p p.T 0 p.V
  have hpath : p.reconPath 0 p.T p.V = [p.V] :=
    eq_singleton_of_length_sum _ (by rw [hlen, hT1]) hsum
  show p.run = some [p.V]
  rw [hrun, hpath]

/-- Witness for the amended C9 at `V = 2`, `bnow = [0]`, bounds `[0, 2]`. -/
theorem claim_C9_witness :
    best_respond 2 [0] 1 0 0 2 = some [2] :=
  claim_C9 ⟨2, [0], 1, 0, 0, 2⟩ rfl rfl (by decide) (by decide) (by decide) (by decide)

/-- C1 (amended): provided additionally `lower_limit ≤ 0 ≤ upper_limit`,
for every feasible instance `best_respond` returns a feasible trajectory
(length `T`, entries within bounds, summing to `V`) whose `total_cost`
against `bnow` attains the minimum of `total_cost` over all feasible
trajectories; in particular this covers the small enumerable instances
of the specification. -/
theorem claim_C1 (p : Params) (hT : 1 ≤ p.T) (hb : p.bnow.length = p.T)
    (hl : p.lower_limit ≤ 0) (hu : 0 ≤ p.upper_limit) (hk : 0 ≤ p.kappa)
    (hf1 : (p.T : ℤ) * p.lower_limit ≤ p.V) (hf2 : p.V ≤ (p.T : ℤ) * p.upper_limit) :
    ∃ a c, best_respond p.V p.bnow p.T p.kappa p.lower_limit p.upper_limit = some a ∧
      p.Feasible a ∧
      total_cost (a.map fun z : ℤ => (z : ℚ)) p.bnow p.kappa = some c ∧
      ∀ a' c', p.Feasible a' →
        total_cost (a'.map fun z : ℤ => (z : ℚ)) p.bnow p.kappa = some c' → c ≤ c' := by
  have hrun := run_spec p hl hu hT hb
  have hcmp : p.lower_limit * (p.T : ℤ) ≤ p.V ∧ p.V ≤ p.upper_limit * (p.T : ℤ) :=
    ⟨by linarith [mul_comm (p.T : ℤ) p.lower_limit],
      by linarith [mul_comm (p.T : ℤ) p.upper_limit]⟩
  obtain ⟨hbnd, hsum⟩ := reconPath_feas p hl hu hT p.T 0 p.V (by omega)
    (le_of_eq (min_remaining_zero p)) (le_of_eq (max_remaining_zero p).symm) hcmp
  have hlen := reconPath_length p p.T 0 p.V
  have hfeas : p.Feasible (p.reconPath 0 p.T p.V) := ⟨hlen, hbnd, hsum⟩
  have htc := total_cost_suffCost p hb _ hlen
  refine ⟨p.reconPath 0 p.T p.V, p.suffCost 0 p.V (p.reconPath 0 p.T p.V),
    hrun, hfeas, htc, ?_⟩
  intro a' c' hfeas' htc'
  have htc2 := total_cost_suffCost p hb a' hfeas'.1
  rw [htc'] at htc2
  have hc' : c' = p.suffCost 0 p.V a' := Option.some_inj.mp htc2
  subst hc'
  by_cases hT2 : 2 ≤ p.T
  · have e3 : p.T - 1 - (p.T - 1) = 0 := by omega
    have e4 : p.T - 1 + 1 = p.T := by omega
    have em1 : p.min_remaining (p.T - 1 - (p.T - 1)) = p.V := by
      rw [e3, min_remaining_zero]
    have em2 : p.max_remaining (p.T - 1 - (p.T - 1)) = p.V := by
      rw [e3, max_remaining_zero]
    have ecast : ((p.T - 1 : ℕ) : ℤ) + 1 = (p.T : ℤ) := by omega
    have hcost := reconPath_cost p hl hu hT2 (p.T - 1) 0 p.V (by omega)
      (le_of_eq (min_remaining_zero p)) (le_of_eq (max_remaining_zero p).symm)
      (by rw [ecast]; exact hcmp)
    rw [e4] at hcost
    obtain ⟨v, hv, -, hlb⟩ := dpCk_opt p hl hu hT2 (p.T - 1) (le_refl _) p.V
      em1.le em2.ge (by rw [ecast]; exact hcmp)
    rw [hcost] at hv
    have hvv : v = p.suffCost 0 p.V (p.reconPath 0 p.T p.V) := (Option.some_inj.mp hv).symm
    rw [e3] at hlb
    have hle := hlb a' (by rw [e4]; exact hfeas'.1) hfeas'.2.1 hfeas'.2.2
    rw [hvv] at hle
    exact hle
  · have hT1 : p.T = 1 := by omega
    have hpathV : p.reconPath 0 p.T p.V = [p.V] :=
      eq_singleton_of_length_sum _ (by rw [hlen, hT1]) hsum
    have ha'V : a' = [p.V] :=
      eq_singleton_of_length_sum _ (by rw [hfeas'.1, hT1]) hfeas'.2.2
    rw [hpathV, ha'V]

/-- Witness for the amended C1 at the concrete scenario of the
specification: `V = 4`, `bnow = [1,1]`, `T = 2`, `kappa = 1/2`,
bounds `[0, 4]`. -/
theorem claim_C1_witness :
    ∃ a c, best_respond 4 [1, 1] 2 (1/2) 0 4 = some a ∧
      Params.Feasible ⟨4, [1, 1], 2, 1/2, 0, 4⟩ a ∧
      total_cost (a.map fun z : ℤ => (z : ℚ)) [1, 1] (1/2) = some c ∧
      ∀ a' c', Params.Feasible ⟨4, [1, 1], 2, 1/2, 0, 4⟩ a' →
        total_cost (a'.map fun z : ℤ => (z : ℚ)) [1, 1] (1/2) = some c' → c ≤ c' :=
  claim_C1 ⟨4, [1, 1], 2, 1/2, 0, 4⟩ (by decide) rfl (by decide) (by decide)
    (by norm_num) (by decide) (by decide)

/-! ## Claims C7 and C8 -/

/-- C7 (amended): provided `lower_limit ≤ 0 ≤ upper_limit` and
restricting to reached states — in-window `(t, s)` whose populated cost
cell is not the `np.inf` sentinel — the recorded action `q` satisfies
`lower_limit ≤ q ≤ upper_limit`, `s - q` lies in the feasible window at
`t + 1`, if `t + 1 < T` the next state's cost cell is again finite (the
horizon remains completable from it), and at the terminal step
`t = T - 1` the recorded action equals `s` exactly. -/
theorem claim_C7 (p : Params) (hT : 1 ≤ p.T) (hb : p.bnow.length = p.T)
    (hl : p.lower_limit ≤ 0) (hu : 0 ≤ p.upper_limit)
    (t : ℕ) (ht : t < p.T) (s : ℤ)
    (hs1 : p.min_remaining t ≤ s) (hs2 : s ≤ p.max_remaining t)
    (hfin : p.costAt t s ≠ some none) :
    ∃ q, p.actAt t s = some q ∧ p.lower_limit ≤ q ∧ q ≤ p.upper_limit ∧
      p.min_remaining (t + 1) ≤ s - q ∧ s - q ≤ p.max_remaining (t + 1) ∧
      (t + 1 < p.T → ∃ c, p.costAt (t + 1) (s - q) = some (some c)) ∧
      (t = p.T - 1 → q = s) := by
  obtain ⟨hca, haa⟩ := costAt_eq p hl hu hT hb ht hs1 hs2
  have hrow : p.T - 1 - (p.T - 1 - t) = t := by omega
  have hspec := dpCk_spec p hl hu hT (p.T - 1 - t) (by omega) s
    (by rw [hrow]; exact hs1) (by rw [hrow]; exact hs2)
  have hnone : (p.dpCk (p.T - 1 - t) s).1 ≠ none := by
    intro hcon
    apply hfin
    rw [hca, hcon]
  have hcmp := not_not.mp fun hcon => hnone (hspec.1.1.mpr hcon)
  obtain ⟨hbnd, hzero, hsuccs⟩ := hspec.2 hcmp
  refine ⟨(p.dpCk (p.T - 1 - t) s).2, haa, hbnd.1, hbnd.2,
    (window_step p hs1 hs2 hbnd.1 hbnd.2).1, (window_step p hs1 hs2 hbnd.1 hbnd.2).2,
    ?_, ?_⟩
  · intro ht1
    obtain ⟨hnextc, -⟩ := hsuccs (p.T - 2 - t) (by omega)
    have hwin := window_step p hs1 hs2 hbnd.1 hbnd.2
    have hrow2 : p.T - 1 - (p.T - 2 - t) = t + 1 := by omega
    have hspec2 := dpCk_spec p hl hu hT (p.T - 2 - t) (by omega)
      (s - (p.dpCk (p.T - 1 - t) s).2)
      (by rw [hrow2]; exact hwin.1) (by rw [hrow2]; exact hwin.2)
    have hne : (p.dpCk (p.T - 2 - t) (s - (p.dpCk (p.T - 1 - t) s).2)).1 ≠ none := by
      intro hcon
      exact absurd hnextc (hspec2.1.1.mp hcon)
    obtain ⟨c, hc⟩ := Option.ne_none_iff_exists'.mp hne
    obtain ⟨hca2, -⟩ := costAt_eq p hl hu hT hb (t := t + 1) (by omega) hwin.1 hwin.2
    refine ⟨c, ?_⟩
    rw [hca2]
    have e : p.T - 1 - (t + 1) = p.T - 2 - t := by omega
    rw [e, hc]
  · intro ht2
    exact hzero (by omega)

/-- Witness for the amended C7 at `V = 2`, `T = 2`, bounds `[0, 1]`,
terminal state `(t, s) = (1, 1)`. -/
theorem claim_C7_witness :
    ∃ q, Params.actAt ⟨2, [0, 0], 2, 0, 0, 1⟩ 1 1 = some q ∧ (0:ℤ) ≤ q ∧ q ≤ 1 ∧
      Params.min_remaining ⟨2, [0, 0], 2, 0, 0, 1⟩ 2 ≤ 1 - q ∧
      1 - q ≤ Params.max_remaining ⟨2, [0, 0], 2, 0, 0, 1⟩ 2 ∧
      (1 + 1 < 2 → ∃ c, Params.costAt ⟨2, [0, 0], 2, 0, 0, 1⟩ 2 (1 - q) = some (some c)) ∧
      (1 = 2 - 1 → q = 1) :=
  claim_C7 ⟨2, [0, 0], 2, 0, 0, 1⟩ (by decide) rfl (by decide) (by decide) 1 (by decide) 1
    (by decide) (by decide) (by decide)

/-- C8: at every inner state `(t, s)` (`t < T - 1`, `s` in the window)
with at least one finite candidate, the recorded action is the smallest
`q` in `[lower_limit, upper_limit]` attaining the minimal candidate
cost: no candidate is strictly below it, and it is strictly below every
candidate at a smaller `q`, so a later equal-cost candidate never
overwrites it (strict `<` comparison). -/
theorem claim_C8 (p : Params) (hb : p.bnow.length = p.T)
    (hl : p.lower_limit ≤ 0) (hu : 0 ≤ p.upper_limit)
    (t : ℕ) (ht : t + 1 < p.T) (s : ℤ)
    (hs1 : p.min_remaining t ≤ s) (hs2 : s ≤ p.max_remaining t)
    (hfin : ∃ q, p.lower_limit ≤ q ∧ q ≤ p.upper_limit ∧ p.candAt t s q ≠ some none) :
    ∃ q0, p.actAt t s = some q0 ∧ p.lower_limit ≤ q0 ∧ q0 ≤ p.upper_limit ∧
      (∀ q x x0, p.lower_limit ≤ q → q ≤ p.upper_limit →
        p.candAt t s q = some x → p.candAt t s q0 = some x0 → optLT x x0 = false) ∧
      (∀ q x x0, p.lower_limit ≤ q → q < q0 →
        p.candAt t s q = some x → p.candAt t s q0 = some x0 → optLT x0 x = true) := by
  have hT : 1 ≤ p.T := by omega
  obtain ⟨-, haa⟩ := costAt_eq p hl hu hT hb (by omega : t < p.T) hs1 hs2
  have hkk : p.T - 1 - t = (p.T - 2 - t) + 1 := by omega
  have hrow : p.T - 2 - (p.T - 2 - t) = t := by omega
  have hdp : p.dpCk (p.T - 1 - t) s =
      ((p.qScan (fun s' => (p.dpCk (p.T - 2 - t) s').1) t s).1,
        ((p.qScan (fun s' => (p.dpCk (p.T - 2 - t) s').1) t s).2).getD 0) := by
    rw [hkk, dpCk_succ_eq, hrow, if_pos ⟨hs1, hs2⟩]
  rcases qScan_char p (fun s' => (p.dpCk (p.T - 2 - t) s').1) t s with
    ⟨hsc, hall⟩ | ⟨q0, v0, hq0l, hq0u, hsc, hcand0, hmin, hfirst⟩
  · exfalso
    obtain ⟨q, hq1, hq2, hqne⟩ := hfin
    apply hqne
    rw [candAt_eq p hl hu hT hb ht hs1 hs2 hq1 hq2, hall q hq1 hq2]
  · refine ⟨q0, ?_, hq0l, hq0u, ?_, ?_⟩
    · rw [haa, hdp, hsc]
      rfl
    · intro q x x0 hq1 hq2 hcx hcx0
      rw [candAt_eq p hl hu hT hb ht hs1 hs2 hq1 hq2] at hcx
      rw [candAt_eq p hl hu hT hb ht hs1 hs2 hq0l hq0u] at hcx0
      have h1 := Option.some_inj.mp hcx
      have h2 := Option.some_inj.mp hcx0
      rw [← h1, ← h2]
      exact hmin q hq1 hq2
    · intro q x x0 hq1 hq2 hcx hcx0
      rw [candAt_eq p hl hu hT hb ht hs1 hs2 hq1 (by omega)] at hcx
      rw [candAt_eq p hl hu hT hb ht hs1 hs2 hq0l hq0u] at hcx0
      have h1 := Option.some_inj.mp hcx
      have h2 := Option.some_inj.mp hcx0
      rw [← h1, ← h2]
      exact hfirst q hq1 hq2

/-- Witness for C8 at `V = 2`, `T = 2`, bounds `[0, 1]`, inner state
`(t, s) = (0, 2)` (candidate `q = 1` is finite). -/
theorem claim_C8_witness :
    ∃ q0, Params.actAt ⟨2, [0, 0], 2, 0, 0, 1⟩ 0 2 = some q0 ∧ (0:ℤ) ≤ q0 ∧ q0 ≤ 1 ∧
      (∀ q x x0, (0:ℤ) ≤ q → q ≤ 1 →
        Params.candAt ⟨2, [0, 0], 2, 0, 0, 1⟩ 0 2 q = some x →
        Params.candAt ⟨2, [0, 0], 2, 0, 0, 1⟩ 0 2 q0 = some x0 → optLT x x0 = false) ∧
      (∀ q x x0, (0:ℤ) ≤ q → q < q0 →
        Params.candAt ⟨2, [0, 0], 2, 0, 0, 1⟩ 0 2 q = some x →
        Params.candAt ⟨2, [0, 0], 2, 0, 0, 1⟩ 0 2 q0 = some x0 → optLT x0 x = true) :=
  claim_C8 ⟨2, [0, 0], 2, 0, 0, 1⟩ rfl (by decide) (by decide) 0 (by decide) 2
    (by decide) (by decide) ⟨1, by decide, by decide, by decide⟩

end BRD
